import Mathlib

/-!
Shallow embedding of the `behaviours` behavior-tree engine
(`behaviours/behaviours.py`) and proofs about its tick semantics.

Modelling conventions:
* Python's caller-supplied `state` object is an abstract type `σ`; a
  user callable (`what` for `Do`/`Run`, the predicate for `EvalB`) is a
  function `σ → σ × Except Err α`: it always yields the possibly-mutated
  state, together with either a return value or a raised exception.
* `random.random()` is an explicit stream `ρ : Nat → ℚ` of uniform draws
  together with a cursor `rix` in the environment; `Chance.__init__`
  consumes one draw.
* A `Node`'s mutable `state` attribute (the behaviour instance) is the
  kind-specific `slot` field of each constructor; `none` models Python
  `None`, `some v` holds the behaviour's mutable fields.
* Exceptions are modelled with `Except`: a tick returns its result (or
  the propagating exception) together with the updated tree and
  environment, since Python mutations performed before a raise persist.
* Each completed `Node.tick` appends a `ticked` event carrying the
  node's path (child indices from the root of the tick call); the
  explicit branch deactivation performed by `Conditional.tick` appends
  a `deact` event.  `Sequence`/`Select`/`UntilB`/`WhileB` children are a
  `Forest` (a copy of `List` mutually inductive with `Node`, so that
  `Node.tick` is structurally recursive and kernel-evaluable).
* The tree is assumed to have no shared subtrees (each node has at most
  one parent, as the data model requires), so `Conditional.last_run`
  is modelled by which branch index was last run rather than by object
  identity.
-/

namespace BT

/-- Exceptions: `user c` is an exception raised by a caller-supplied
callable; `unboundLocal` models Python's `UnboundLocalError` (raised by
`Sequence.tick`/`Select.tick` when the loop body never ran and the
`return False, success` line reads the unassigned local `success`);
`noneAttr` models the `AttributeError` raised when `Node.exit` is
invoked while `state` is `None`. -/
inductive Err where
  | user (code : Nat)
  | unboundLocal
  | noneAttr
deriving DecidableEq, Repr

/-- Observable events of a tick, used to state the lifecycle claims.
`ticked p r s` records that the node at path `p` completed a
`Node.tick` returning `(running, success) = (r, s)`; `deact p` records
that `Conditional.tick` explicitly invoked `Node.exit` on the branch
at path `p`. -/
inductive Ev where
  | ticked (path : List Nat) (running : Bool) (success : Bool)
  | deact (path : List Nat)
deriving DecidableEq, Repr

/-- The environment threaded through a tick: the caller's mutable state
object and the cursor into the random stream. -/
structure Env (σ : Type) where
  st : σ
  rix : Nat
deriving Repr

mutual
/-- A behaviour-tree node.  Each constructor is one `Behaviour`
subclass from the source; the final `slot` argument is the node's
mutable `state` attribute (the live behaviour instance):
`Do`/`NotB`/`Repeat`/`EvalB`/`UntilB`/`WhileB` behaviours have no
mutable fields (`Option Unit`), `Run` holds its `wait` flag, `Chance`
holds the drawn `success` flag, `Wait` holds the `count` countdown,
`Sequence`/`Select` hold the `pointer`, and `Conditional` holds
`last_run` (`none` = no branch run yet, `some true` = the true branch,
`some false` = the false branch). -/
inductive Node (σ : Type) where
  | Do (what : σ → σ × Except Err Unit) (slot : Option Unit)
  | Run (what : σ → σ × Except Err Unit) (slot : Option Bool)
  | Repeat (child : Node σ) (slot : Option Unit)
  | Chance (threshold : ℚ) (child : Node σ) (slot : Option Bool)
  | NotB (child : Node σ) (slot : Option Unit)
  | Wait (steps : Int) (slot : Option Int)
  | EvalB (what : σ → σ × Except Err Bool) (slot : Option Unit)
  | Sequence (children : Forest σ) (slot : Option Nat)
  | Select (children : Forest σ) (slot : Option Nat)
  | UntilB (children : Forest σ) (slot : Option Unit)
  | WhileB (children : Forest σ) (slot : Option Unit)
  | Conditional (cnd : Node σ) (tru : Node σ) (fls : Node σ) (slot : Option (Option Bool))

/-- The ordered children of a composite node (a list, made mutually
inductive with `Node` so that ticking is structurally recursive). -/
inductive Forest (σ : Type) where
  | nil
  | cons (hd : Node σ) (tl : Forest σ)
end

variable {σ : Type}

/-- Child at index `i` (the order of `self.node.children`). -/
def Forest.get? : Forest σ → Nat → Option (Node σ)
  | .nil, _ => none
  | .cons c _, 0 => some c
  | .cons _ tl, n + 1 => tl.get? n

/-- Number of children. -/
def Forest.length : Forest σ → Nat
  | .nil => 0
  | .cons _ tl => tl.length + 1

/-- Whether the node's `state` attribute is non-`None` (mid-activation). -/
def Node.active : Node σ → Bool
  | .Do _ slot => slot.isSome
  | .Run _ slot => slot.isSome
  | .Repeat _ slot => slot.isSome
  | .Chance _ _ slot => slot.isSome
  | .NotB _ slot => slot.isSome
  | .Wait _ slot => slot.isSome
  | .EvalB _ slot => slot.isSome
  | .Sequence _ slot => slot.isSome
  | .Select _ slot => slot.isSome
  | .UntilB _ slot => slot.isSome
  | .WhileB _ slot => slot.isSome
  | .Conditional _ _ _ slot => slot.isSome

/-- `Node.exit`: calls the behaviour's `exit` (a no-op `pass` in every
behaviour subclass) and clears the `state` attribute.  When `state` is
already `None`, Python would raise `AttributeError` (`noneAttr`). -/
def Node.exit : Node σ → Except Err (Node σ)
  | .Do w slot => if slot.isSome then .ok (.Do w none) else .error .noneAttr
  | .Run w slot => if slot.isSome then .ok (.Run w none) else .error .noneAttr
  | .Repeat c slot => if slot.isSome then .ok (.Repeat c none) else .error .noneAttr
  | .Chance t c slot => if slot.isSome then .ok (.Chance t c none) else .error .noneAttr
  | .NotB c slot => if slot.isSome then .ok (.NotB c none) else .error .noneAttr
  | .Wait s slot => if slot.isSome then .ok (.Wait s none) else .error .noneAttr
  | .EvalB w slot => if slot.isSome then .ok (.EvalB w none) else .error .noneAttr
  | .Sequence cs slot => if slot.isSome then .ok (.Sequence cs none) else .error .noneAttr
  | .Select cs slot => if slot.isSome then .ok (.Select cs none) else .error .noneAttr
  | .UntilB cs slot => if slot.isSome then .ok (.UntilB cs none) else .error .noneAttr
  | .WhileB cs slot => if slot.isSome then .ok (.WhileB cs none) else .error .noneAttr
  | .Conditional c t f slot =>
      if slot.isSome then .ok (.Conditional c t f none) else .error .noneAttr

/-- Re-prefix an event's path with child index `i`. -/
def Ev.under (i : Nat) : Ev → Ev
  | .ticked p r s => .ticked (i :: p) r s
  | .deact p => .deact (i :: p)

/-- Re-prefix a whole trace under child index `i`. -/
def underTr (i : Nat) (tr : List Ev) : List Ev := tr.map (Ev.under i)

/-- Result of one `Node.tick`: the `(running, success)` pair (or the
propagating exception), the updated node, the updated environment, and
the events emitted. -/
structure TickOut (σ : Type) where
  res : Except Err (Bool × Bool)
  node : Node σ
  env : Env σ
  tr : List Ev

/-- Result of the `Sequence.tick` / `Select.tick` loop over the suffix
of children from the current pointer: outcome, updated children suffix,
how far the pointer advanced, environment and events. -/
structure LoopOut (σ : Type) where
  res : Except Err (Bool × Bool)
  rest : Forest σ
  adv : Nat
  env : Env σ
  tr : List Ev

/-- Result of the `UntilB.tick` / `WhileB.tick` loop that ticks every
child: the collected `(running, success)` pairs in child order (or the
propagating exception), updated children, environment and events. -/
structure AllOut (σ : Type) where
  res : Except Err (List (Bool × Bool))
  rest : Forest σ
  env : Env σ
  tr : List Ev

/-- The `ticked` root event a `Node.tick` emits on normal return (none
when the behaviour raised). -/
def tickedEv : Except Err (Bool × Bool) → List Ev
  | .error _ => []
  | .ok (r, s) => [.ticked [] r s]

/-- The `Conditional`'s slot after its selected branch was ticked with
result `res`: `Node.tick` exits (clearing the slot) when the branch —
whose result the conditional returns as its own — finished; on a raise
the slot survives with the updated `last_run`. -/
def condSlot (res : Except Err (Bool × Bool)) (v : Bool) : Option (Option Bool) :=
  match res with
  | .ok (false, _) => none
  | _ => some (some v)

mutual
/-- `Node.tick`, specialised per behaviour kind (the generic wrapper
entered the behaviour when `state` was `None`, delegated to the
behaviour's `tick`, and on `running = false` performed `exit` — here
the enter-default, the behaviour body and the final slot are written
out in each branch).  Emits the node's own `ticked` event on normal
return; a raised exception propagates before the event/exit. -/
def Node.tick (ρ : Nat → ℚ) : Node σ → Env σ → TickOut σ
  | .Do w _, env =>
      -- Do.tick: run the callable, catch exceptions as a failed result.
      let p := w env.st
      match p.2 with
      | .error _ => ⟨.ok (false, false), .Do w none, ⟨p.1, env.rix⟩, [.ticked [] false false]⟩
      | .ok _ => ⟨.ok (false, true), .Do w none, ⟨p.1, env.rix⟩, [.ticked [] false true]⟩
  | .Run w slot, env =>
      -- Run.tick: first tick runs the callable (uncaught), second finishes.
      match slot.getD true with
      | true =>
          let p := w env.st
          match p.2 with
          | .error e => ⟨.error e, .Run w (some true), ⟨p.1, env.rix⟩, []⟩
          | .ok _ => ⟨.ok (true, true), .Run w (some false), ⟨p.1, env.rix⟩, [.ticked [] true true]⟩
      | false => ⟨.ok (false, true), .Run w none, env, [.ticked [] false true]⟩
  | .Repeat c _, env =>
      -- Repeat.tick: tick the child; finish (failed) only on child failure.
      let o := Node.tick ρ c env
      match o.res with
      | .error e => ⟨.error e, .Repeat o.node (some ()), o.env, underTr 0 o.tr⟩
      | .ok (false, false) =>
          ⟨.ok (false, false), .Repeat o.node none, o.env,
            underTr 0 o.tr ++ [.ticked [] false false]⟩
      | .ok (false, true) =>
          ⟨.ok (true, true), .Repeat o.node (some ()), o.env,
            underTr 0 o.tr ++ [.ticked [] true true]⟩
      | .ok (true, _) =>
          ⟨.ok (true, true), .Repeat o.node (some ()), o.env,
            underTr 0 o.tr ++ [.ticked [] true true]⟩
  | .Chance t c slot, env =>
      -- Chance.__init__ draws once on enter; tick gates on the drawn flag.
      let pr : Bool × Env σ :=
        match slot with
        | some b => (b, env)
        | none => (decide (ρ env.rix ≤ t), ⟨env.st, env.rix + 1⟩)
      match pr.1 with
      | false => ⟨.ok (false, false), .Chance t c none, pr.2, [.ticked [] false false]⟩
      | true =>
          let o := Node.tick ρ c pr.2
          match o.res with
          | .error e => ⟨.error e, .Chance t o.node (some true), o.env, underTr 0 o.tr⟩
          | .ok (r, s) =>
              ⟨.ok (r, s), .Chance t o.node (if r then some true else none), o.env,
                underTr 0 o.tr ++ [.ticked [] r s]⟩
  | .NotB c _, env =>
      -- NotB.tick: pass running through as (true, true); negate terminal success.
      let o := Node.tick ρ c env
      match o.res with
      | .error e => ⟨.error e, .NotB o.node (some ()), o.env, underTr 0 o.tr⟩
      | .ok (true, _) =>
          ⟨.ok (true, true), .NotB o.node (some ()), o.env,
            underTr 0 o.tr ++ [.ticked [] true true]⟩
      | .ok (false, s) =>
          ⟨.ok (false, !s), .NotB o.node none, o.env,
            underTr 0 o.tr ++ [.ticked [] false (!s)]⟩
  | .Wait steps slot, env =>
      -- Wait.__init__ sets count := steps; tick decrements while positive.
      let cnt := slot.getD steps
      if cnt ≤ 0 then ⟨.ok (false, true), .Wait steps none, env, [.ticked [] false true]⟩
      else ⟨.ok (true, true), .Wait steps (some (cnt - 1)), env, [.ticked [] true true]⟩
  | .EvalB w _, env =>
      -- EvalB.tick: run the predicate, catch exceptions as failure.
      let p := w env.st
      match p.2 with
      | .error _ => ⟨.ok (false, false), .EvalB w none, ⟨p.1, env.rix⟩, [.ticked [] false false]⟩
      | .ok b => ⟨.ok (false, b), .EvalB w none, ⟨p.1, env.rix⟩, [.ticked [] false b]⟩
  | .Sequence cs slot, env =>
      -- Sequence.__init__ sets pointer := 0; tick loops from the pointer.
      let ptr := slot.getD 0
      let r := seqLoop ρ 0 cs ptr none env
      match r.res with
      | .error e => ⟨.error e, .Sequence r.rest (some (ptr + r.adv)), r.env, r.tr⟩
      | .ok (true, s) =>
          ⟨.ok (true, s), .Sequence r.rest (some (ptr + r.adv)), r.env,
            r.tr ++ [.ticked [] true s]⟩
      | .ok (false, s) =>
          ⟨.ok (false, s), .Sequence r.rest none, r.env, r.tr ++ [.ticked [] false s]⟩
  | .Select cs slot, env =>
      let ptr := slot.getD 0
      let r := selLoop ρ 0 cs ptr none env
      match r.res with
      | .error e => ⟨.error e, .Select r.rest (some (ptr + r.adv)), r.env, r.tr⟩
      | .ok (true, s) =>
          ⟨.ok (true, s), .Select r.rest (some (ptr + r.adv)), r.env,
            r.tr ++ [.ticked [] true s]⟩
      | .ok (false, s) =>
          ⟨.ok (false, s), .Select r.rest none, r.env, r.tr ++ [.ticked [] false s]⟩
  | .UntilB cs _, env =>
      -- UntilB.tick: tick every child; exit once some finished child succeeded.
      let r := allLoop ρ 0 cs env
      match r.res with
      | .error e => ⟨.error e, .UntilB r.rest (some ()), r.env, r.tr⟩
      | .ok results =>
          if results.any (fun p => !p.1 && p.2) then
            ⟨.ok (false, true), .UntilB r.rest none, r.env, r.tr ++ [.ticked [] false true]⟩
          else
            ⟨.ok (true, true), .UntilB r.rest (some ()), r.env, r.tr ++ [.ticked [] true true]⟩
  | .WhileB cs _, env =>
      -- WhileB.tick: tick every child; exit once some finished child failed.
      let r := allLoop ρ 0 cs env
      match r.res with
      | .error e => ⟨.error e, .WhileB r.rest (some ()), r.env, r.tr⟩
      | .ok results =>
          if results.all (fun p => p.1 || p.2) then
            ⟨.ok (true, true), .WhileB r.rest (some ()), r.env, r.tr ++ [.ticked [] true true]⟩
          else
            ⟨.ok (false, true), .WhileB r.rest none, r.env, r.tr ++ [.ticked [] false true]⟩
  | .Conditional cnd tru fls slot, env =>
      -- Conditional.__init__ sets last_run := None; tick evaluates the
      -- condition child, selects a branch, deactivates the previously
      -- selected branch on a switch, and ticks the selected branch.
      let lr := slot.getD none
      let o := Node.tick ρ cnd env
      match o.res with
      | .error e => ⟨.error e, .Conditional o.node tru fls (some lr), o.env, underTr 0 o.tr⟩
      | .ok (true, _) =>
          ⟨.ok (true, true), .Conditional o.node tru fls (some lr), o.env,
            underTr 0 o.tr ++ [.ticked [] true true]⟩
      | .ok (false, v) =>
          if lr = some v then
            -- selected == last_run: no deactivation, tick the branch.
            match v with
            | true =>
                let ob := Node.tick ρ tru o.env
                ⟨ob.res, .Conditional o.node ob.node fls (condSlot ob.res true), ob.env,
                  underTr 0 o.tr ++ underTr 1 ob.tr ++ tickedEv ob.res⟩
            | false =>
                let ob := Node.tick ρ fls o.env
                ⟨ob.res, .Conditional o.node tru ob.node (condSlot ob.res false), ob.env,
                  underTr 0 o.tr ++ underTr 2 ob.tr ++ tickedEv ob.res⟩
          else
            match lr with
            | none =>
                -- first selection in this activation: no previous branch to exit.
                match v with
                | true =>
                    let ob := Node.tick ρ tru o.env
                    ⟨ob.res, .Conditional o.node ob.node fls (condSlot ob.res true), ob.env,
                      underTr 0 o.tr ++ underTr 1 ob.tr ++ tickedEv ob.res⟩
                | false =>
                    let ob := Node.tick ρ fls o.env
                    ⟨ob.res, .Conditional o.node tru ob.node (condSlot ob.res false), ob.env,
                      underTr 0 o.tr ++ underTr 2 ob.tr ++ tickedEv ob.res⟩
            | some true =>
                -- switch away from the true branch: exit it, then tick `fls`.
                match Node.exit tru with
                | .error e =>
                    ⟨.error e, .Conditional o.node tru fls (some (some true)), o.env,
                      underTr 0 o.tr⟩
                | .ok tru₁ =>
                    let ob := Node.tick ρ fls o.env
                    ⟨ob.res, .Conditional o.node tru₁ ob.node (condSlot ob.res false), ob.env,
                      underTr 0 o.tr ++ [.deact [1]] ++ underTr 2 ob.tr ++ tickedEv ob.res⟩
            | some false =>
                -- switch away from the false branch: exit it, then tick `tru`.
                match Node.exit fls with
                | .error e =>
                    ⟨.error e, .Conditional o.node tru fls (some (some false)), o.env,
                      underTr 0 o.tr⟩
                | .ok fls₁ =>
                    let ob := Node.tick ρ tru o.env
                    ⟨ob.res, .Conditional o.node ob.node fls₁ (condSlot ob.res true), ob.env,
                      underTr 0 o.tr ++ [.deact [2]] ++ underTr 1 ob.tr ++ tickedEv ob.res⟩

/-- The `while self.pointer < len(children)` loop of `Sequence.tick`.
`i` is the absolute index of the first element of `cs` among the
node's children, `skip` is how many further elements the pointer has
already passed, and `last` is the loop-local `success` variable (which
starts each tick unassigned — reading it with no iteration executed
raises `UnboundLocalError`). -/
def seqLoop (ρ : Nat → ℚ) : Nat → Forest σ → Nat → Option Bool → Env σ → LoopOut σ
  | _, .nil, _, last, env =>
      match last with
      | none => ⟨.error .unboundLocal, .nil, 0, env, []⟩
      | some s => ⟨.ok (false, s), .nil, 0, env, []⟩
  | i, .cons c tl, 0, _, env =>
      let o := Node.tick ρ c env
      match o.res with
      | .error e => ⟨.error e, .cons o.node tl, 0, o.env, underTr i o.tr⟩
      | .ok (true, s) => ⟨.ok (true, s), .cons o.node tl, 0, o.env, underTr i o.tr⟩
      | .ok (false, false) => ⟨.ok (false, false), .cons o.node tl, 0, o.env, underTr i o.tr⟩
      | .ok (false, true) =>
          let r := seqLoop ρ (i + 1) tl 0 (some true) o.env
          ⟨r.res, .cons o.node r.rest, r.adv + 1, r.env, underTr i o.tr ++ r.tr⟩
  | i, .cons c tl, skip + 1, last, env =>
      let r := seqLoop ρ (i + 1) tl skip last env
      ⟨r.res, .cons c r.rest, r.adv, r.env, r.tr⟩

/-- The loop of `Select.tick` (short-circuits on the first success,
advances past failures). -/
def selLoop (ρ : Nat → ℚ) : Nat → Forest σ → Nat → Option Bool → Env σ → LoopOut σ
  | _, .nil, _, last, env =>
      match last with
      | none => ⟨.error .unboundLocal, .nil, 0, env, []⟩
      | some s => ⟨.ok (false, s), .nil, 0, env, []⟩
  | i, .cons c tl, 0, _, env =>
      let o := Node.tick ρ c env
      match o.res with
      | .error e => ⟨.error e, .cons o.node tl, 0, o.env, underTr i o.tr⟩
      | .ok (true, s) => ⟨.ok (true, s), .cons o.node tl, 0, o.env, underTr i o.tr⟩
      | .ok (false, true) => ⟨.ok (false, true), .cons o.node tl, 0, o.env, underTr i o.tr⟩
      | .ok (false, false) =>
          let r := selLoop ρ (i + 1) tl 0 (some false) o.env
          ⟨r.res, .cons o.node r.rest, r.adv + 1, r.env, underTr i o.tr ++ r.tr⟩
  | i, .cons c tl, skip + 1, last, env =>
      let r := selLoop ρ (i + 1) tl skip last env
      ⟨r.res, .cons c r.rest, r.adv, r.env, r.tr⟩

/-- The `for child in children` loop of `UntilB.tick`/`WhileB.tick`:
ticks every child in order, collecting the `(running, success)` pairs.
An exception from a child propagates, leaving later children unticked. -/
def allLoop (ρ : Nat → ℚ) : Nat → Forest σ → Env σ → AllOut σ
  | _, .nil, env => ⟨.ok [], .nil, env, []⟩
  | i, .cons c tl, env =>
      let o := Node.tick ρ c env
      match o.res with
      | .error e => ⟨.error e, .cons o.node tl, o.env, underTr i o.tr⟩
      | .ok rs =>
          let r := allLoop ρ (i + 1) tl o.env
          ⟨r.res.map (rs :: ·), .cons o.node r.rest, r.env, underTr i o.tr ++ r.tr⟩
end

/-! Builder functions (`do`, `run`, `repeat`, `chance`, `notb`, `wait`,
`evalb`, `sequence`, `select`, `untilb`, `whileb`, `conditional` in the
source): construct an idle node (`state = None`).  The `name` string
argument, used only for diagnostics, is dropped. -/

/-- Builder `do(name, what)` (named `doB`: `do` is reserved in Lean). -/
def doB (what : σ → σ × Except Err Unit) : Node σ := .Do what none

/-- Builder `run(name, what)`. -/
def run (what : σ → σ × Except Err Unit) : Node σ := .Run what none

/-- Builder `repeat(what)` (named `repeatB`: `repeat` is a Lean tactic). -/
def repeatB (what : Node σ) : Node σ := .Repeat what none

/-- Builder `chance(threshold, what)`. -/
def chance (threshold : ℚ) (what : Node σ) : Node σ := .Chance threshold what none

/-- Builder `notb(node)`. -/
def notb (node : Node σ) : Node σ := .NotB node none

/-- Builder `wait(steps)`. -/
def wait (steps : Int) : Node σ := .Wait steps none

/-- Builder `evalb(name, what)`. -/
def evalb (what : σ → σ × Except Err Bool) : Node σ := .EvalB what none

/-- Builder `sequence(name, *children)`. -/
def sequence (children : Forest σ) : Node σ := .Sequence children none

/-- Builder `select(name, *children)`. -/
def select (children : Forest σ) : Node σ := .Select children none

/-- Builder `untilb(name, *children)`. -/
def untilb (children : Forest σ) : Node σ := .UntilB children none

/-- Builder `whileb(name, *children)`. -/
def whileb (children : Forest σ) : Node σ := .WhileB children none

/-- Builder `conditional(name, condition, true, false)`. -/
def conditional (cnd tru fls : Node σ) : Node σ := .Conditional cnd tru fls none

/-- The results of `k` successive ticks of the same tree, as the caller
observes them when driving the tree only through the public tick entry
point. -/
def tickSeq (ρ : Nat → ℚ) : Nat → Node σ → Env σ → List (Except Err (Bool × Bool))
  | 0, _, _ => []
  | k + 1, n, env =>
      let o := Node.tick ρ n env
      o.res :: tickSeq ρ k o.node o.env

/-- Child of a node at index `i` (`self.node.children[i]`; for
`Conditional`, children are `[condition, true, false]`). -/
def childAt : Node σ → Nat → Option (Node σ)
  | .Do _ _, _ => none
  | .Run _ _, _ => none
  | .Repeat c _, 0 => some c
  | .Repeat _ _, _ + 1 => none
  | .Chance _ c _, 0 => some c
  | .Chance _ _ _, _ + 1 => none
  | .NotB c _, 0 => some c
  | .NotB _ _, _ + 1 => none
  | .Wait _ _, _ => none
  | .EvalB _ _, _ => none
  | .Sequence cs _, i => cs.get? i
  | .Select cs _, i => cs.get? i
  | .UntilB cs _, i => cs.get? i
  | .WhileB cs _, i => cs.get? i
  | .Conditional c _ _ _, 0 => some c
  | .Conditional _ t _ _, 1 => some t
  | .Conditional _ _ f _, 2 => some f
  | .Conditional _ _ _ _, _ + 3 => none

/-- Whether the node at path `p` (child indices from the root) has a
live behaviour instance; `none` when the path addresses no node. -/
def slotAt : Node σ → List Nat → Option Bool
  | n, [] => some n.active
  | n, i :: p => match childAt n i with
      | some c => slotAt c p
      | none => none

/-- The `running` value of the most recent completed tick of the node
at path `p` in the trace (`none` when it has never completed a tick).
This is the reading of "most recent tick" in the spec's activation
invariant. -/
def lastTickRunning : List Ev → List Nat → Option Bool
  | [], _ => none
  | e :: tr, p =>
      match lastTickRunning tr p with
      | some b => some b
      | none =>
          match e with
          | .ticked q r _ => if q = p then some r else none
          | .deact _ => none

/-- Like `lastTickRunning`, but a `deact` event (the explicit branch
deactivation a `Conditional` performs on a switch) also ends the
node's activation, reporting `false`. -/
def lastActive : List Ev → List Nat → Option Bool
  | [], _ => none
  | e :: tr, p =>
      match lastActive tr p with
      | some b => some b
      | none =>
          match e with
          | .ticked q r _ => if q = p then some r else none
          | .deact q => if q = p then some false else none

/-- Project the events of child `i` out of a trace, stripping the
leading index. -/
def subT (i : Nat) : List Ev → List Ev
  | [] => []
  | .ticked (j :: p) r s :: tr =>
      if j = i then .ticked p r s :: subT i tr else subT i tr
  | .ticked [] _ _ :: tr => subT i tr
  | .deact (j :: p) :: tr =>
      if j = i then .deact p :: subT i tr else subT i tr
  | .deact [] :: tr => subT i tr

/-- The root-level tick results recorded in a trace. -/
def roots : List Ev → List (Bool × Bool)
  | [] => []
  | .ticked [] r s :: tr => (r, s) :: roots tr
  | .ticked (_ :: _) _ _ :: tr => roots tr
  | .deact _ :: tr => roots tr

/-- The indices of direct children whose own tick completed, in event
order ("which children were ticked this cycle"). -/
def kidTicks : List Ev → List Nat
  | [] => []
  | .ticked [i] _ _ :: tr => i :: kidTicks tr
  | .ticked [] _ _ :: tr => kidTicks tr
  | .ticked (_ :: _ :: _) _ _ :: tr => kidTicks tr
  | .deact _ :: tr => kidTicks tr

/-- The direct branch deactivations a node performed itself (a
`Conditional` deactivating `children[1]` or `children[2]`). -/
def kidDeacts : List Ev → List Nat
  | [] => []
  | .deact [i] :: tr => i :: kidDeacts tr
  | .deact [] :: tr => kidDeacts tr
  | .deact (_ :: _ :: _) :: tr => kidDeacts tr
  | .ticked _ _ _ :: tr => kidDeacts tr

/-- All slots in the tree are empty (a freshly constructed tree, before
any tick). -/
def idle : Node σ → Prop := fun n => ∀ p b, slotAt n p = some b → b = false

/-- The activation-lifecycle invariant, relative to the trace of events
emitted so far: a node's behaviour slot is non-empty exactly when its
activation is still open — its most recent tick returned
`running = true` and it has not since been deactivated by a
`Conditional` branch switch. -/
def Consistent (n : Node σ) (tr : List Ev) : Prop :=
  ∀ p b, slotAt n p = some b → (b = true ↔ lastActive tr p = some true)

/-- A node preserves the activation-lifecycle invariant: any tick of it
that returns normally carries a consistent tree/trace pair to a
consistent one. -/
def TickPreserves (ρ : Nat → ℚ) (c : Node σ) : Prop :=
  ∀ (env : Env σ) (tr : List Ev) (rs : Bool × Bool),
    Consistent c tr → (Node.tick ρ c env).res = .ok rs →
    Consistent (Node.tick ρ c env).node (tr ++ (Node.tick ρ c env).tr)

/-- The node with its behaviour slot cleared (what `Node.exit` leaves
behind when the slot was present). -/
def Node.clear : Node σ → Node σ
  | .Do w _ => .Do w none
  | .Run w _ => .Run w none
  | .Repeat c _ => .Repeat c none
  | .Chance t c _ => .Chance t c none
  | .NotB c _ => .NotB c none
  | .Wait s _ => .Wait s none
  | .EvalB w _ => .EvalB w none
  | .Sequence cs _ => .Sequence cs none
  | .Select cs _ => .Select cs none
  | .UntilB cs _ => .UntilB cs none
  | .WhileB cs _ => .WhileB cs none
  | .Conditional c t f _ => .Conditional c t f none

/-! Concrete fixtures used by witnesses and counterexamples. -/

/-- A fixed random stream (the scenarios below contain no `Chance`
node, so the draws are irrelevant). -/
def rho0 : Nat → ℚ := fun _ => 0

/-- Condition leaf for the `Conditional` scenarios: a predicate that
reports the caller's boolean state. -/
def cndFlag : Node Bool := evalb (fun s => (s, .ok s))

/-- A `repeat(do(...))` branch: runs forever, one no-op effect per
tick (the `true` branch of the long-running conditional scenario). -/
def branchRep : Node Bool := repeatB (doB (fun s => (s, .ok ())))

/-- The tree of the long-running conditional scenario:
`conditional(condition`=state flag`, true=repeat(do), false=repeat(do))`. -/
def condTreeRep : Node Bool := conditional cndFlag branchRep branchRep

/-- First root tick of `condTreeRep` with the flag `true`: the
condition resolves `true`, the true branch starts running. -/
def condT1 : TickOut Bool := Node.tick rho0 condTreeRep ⟨true, 0⟩

/-- Second root tick, after the caller flips the flag to `false`: the
condition resolves `false` and the conditional deactivates the
previously selected (still running) true branch. -/
def condT2 : TickOut Bool := Node.tick rho0 condT1.node ⟨false, 0⟩

/-- A `do` leaf branch for the one-shot conditional scenario. -/
def branchDo : Node Bool := doB (fun s => (s, .ok ()))

/-- The tree of the one-shot conditional scenario:
`conditional(condition`=state flag`, true=do, false=do)` — each branch
finishes on the tick it is selected, so the whole conditional finishes
every tick and each tick is its own activation. -/
def condTreeDo : Node Bool := conditional cndFlag branchDo branchDo

/-- First root tick of `condTreeDo` with the flag `true`. -/
def condD1 : TickOut Bool := Node.tick rho0 condTreeDo ⟨true, 0⟩

/-- Second root tick, after the caller flips the flag to `false`. -/
def condD2 : TickOut Bool := Node.tick rho0 condD1.node ⟨false, 0⟩

/-- An effect callable that counts its invocations in the caller state
and raises on the first invocation only. -/
def wCount : Nat → Nat × Except Err Unit :=
  fun n => (n + 1, if n = 0 then .error (.user 1) else .ok ())

/-- The list of `count` consecutive indices starting at `i`. -/
def idxRange (i : Nat) : Nat → List Nat
  | 0 => []
  | n + 1 => i :: idxRange (i + 1) n

/-! ### Theorems -/

/-- A `Wait` behaviour whose countdown holds the natural number `k`
reports `(true, true)` for `k` more ticks and then `(false, true)`. -/
theorem wait_schedule_aux (ρ : Nat → ℚ) :
    ∀ (k : Nat) (s : Int) (env : Env σ),
      tickSeq ρ (k + 1) (.Wait s (some (k : Int))) env
        = List.replicate k (.ok (true, true)) ++ [.ok (false, true)] := by
  intro k
  induction k with
  | zero => intro s env; rfl
  | succ k ih =>
      intro s env
      have h1 : ¬((k + 1 : Nat) : Int) ≤ 0 := by omega
      have h2 : ((k + 1 : Nat) : Int) - 1 = (k : Int) := by omega
      have hstep : Node.tick ρ (.Wait s (some ((k + 1 : Nat) : Int))) env
          = ⟨.ok (true, true), .Wait s (some (k : Int)), env, [.ticked [] true true]⟩ := by
        simp [Node.tick, h1, h2]
      calc tickSeq ρ (k + 1 + 1) (.Wait s (some ((k + 1 : Nat) : Int))) env
          = (Node.tick ρ (.Wait s (some ((k + 1 : Nat) : Int))) env).res ::
              tickSeq ρ (k + 1)
                (Node.tick ρ (.Wait s (some ((k + 1 : Nat) : Int))) env).node
                (Node.tick ρ (.Wait s (some ((k + 1 : Nat) : Int))) env).env := rfl
        _ = .ok (true, true) :: tickSeq ρ (k + 1) (.Wait s (some (k : Int))) env := by
              rw [hstep]
        _ = List.replicate (k + 1) (.ok (true, true)) ++ [.ok (false, true)] := by
              rw [ih]; simp [List.replicate_succ]

/-- C7: for every natural `n`, a `wait(n)` node ticked from idle
reports `(true, true)` on each of ticks `1..n` and `(false, true)` on
tick `n + 1`; for `n = 0` the very first tick is `(false, true)`. -/
theorem wait_tick_schedule (ρ : Nat → ℚ) (n : Nat) (env : Env σ) :
    tickSeq ρ (n + 1) (wait (n : Int)) env
      = List.replicate n (.ok (true, true)) ++ [.ok (false, true)] := by
  have henter : Node.tick ρ (.Wait (n : Int) none) env
      = Node.tick ρ (.Wait (n : Int) (some (n : Int))) env := rfl
  have : tickSeq ρ (n + 1) (wait (n : Int)) env
      = tickSeq ρ (n + 1) (.Wait (n : Int) (some (n : Int))) env := by
    simp only [tickSeq, wait, henter]
  rw [this, wait_schedule_aux]

/-- C2 (the code contradicts the spec here): ticking a `Sequence`
constructed with zero children raises `UnboundLocalError` — the `while`
loop body never runs, so the final `return False, success` reads the
unassigned local `success` — instead of returning `(false, true)`. -/
theorem empty_sequence_first_tick_raises (ρ : Nat → ℚ) (env : Env σ) :
    (Node.tick ρ (sequence .nil) env).res = .error .unboundLocal := rfl

/-- C3: an exception raised by `Do`'s effect or `EvalB`'s predicate is
caught at the node boundary and turned into a normal `(false, false)`
tick result (with the callable's state mutation kept); an exception
raised by `Run`'s effect on its first tick propagates out of the tick
uncaught. -/
theorem leaf_exception_handling (ρ : Nat → ℚ) (w : σ → σ × Except Err Unit)
    (wb : σ → σ × Except Err Bool) (env : Env σ) :
    (∀ st' e, w env.st = (st', .error e) →
        Node.tick ρ (doB w) env
          = ⟨.ok (false, false), .Do w none, ⟨st', env.rix⟩, [.ticked [] false false]⟩)
    ∧ (∀ st' e, wb env.st = (st', .error e) →
        Node.tick ρ (evalb wb) env
          = ⟨.ok (false, false), .EvalB wb none, ⟨st', env.rix⟩, [.ticked [] false false]⟩)
    ∧ (∀ st' e, w env.st = (st', .error e) →
        Node.tick ρ (run w) env = ⟨.error e, .Run w (some true), ⟨st', env.rix⟩, []⟩) := by
  refine ⟨?_, ?_, ?_⟩ <;> intro st' e h <;> simp [Node.tick, doB, evalb, run, h]

/-- Witness for C3 at concrete raising callables. -/
theorem leaf_exception_handling_witness :
    Node.tick rho0 (doB (fun _ => ((), Except.error (Err.user 3)))) (⟨(), 0⟩ : Env Unit)
      = ⟨.ok (false, false), .Do (fun _ => ((), Except.error (Err.user 3))) none, ⟨(), 0⟩,
          [.ticked [] false false]⟩
    ∧ Node.tick rho0 (evalb (fun _ => ((), Except.error (Err.user 4)))) (⟨(), 0⟩ : Env Unit)
      = ⟨.ok (false, false), .EvalB (fun _ => ((), Except.error (Err.user 4))) none, ⟨(), 0⟩,
          [.ticked [] false false]⟩
    ∧ Node.tick rho0 (run (fun _ => ((), Except.error (Err.user 3)))) (⟨(), 0⟩ : Env Unit)
      = ⟨.error (.user 3), .Run (fun _ => ((), Except.error (Err.user 3))) (some true), ⟨(), 0⟩,
          []⟩ :=
  ⟨(leaf_exception_handling rho0 (fun _ => ((), Except.error (Err.user 3)))
      (fun _ => ((), Except.error (Err.user 4))) ⟨(), 0⟩).1 () (.user 3) rfl,
   (leaf_exception_handling rho0 (fun _ => ((), Except.error (Err.user 3)))
      (fun _ => ((), Except.error (Err.user 4))) ⟨(), 0⟩).2.1 () (.user 4) rfl,
   (leaf_exception_handling rho0 (fun _ => ((), Except.error (Err.user 3)))
      (fun _ => ((), Except.error (Err.user 4))) ⟨(), 0⟩).2.2 () (.user 3) rfl⟩

/-- C8: `Chance` draws exactly one random value per activation, at
activation time — the activating tick advances the random cursor once
and otherwise behaves exactly like a tick with the drawn
`success = (draw ≤ threshold)` flag already fixed; with the flag
`false` every tick returns `(false, false)` leaving the child, the
state and the cursor untouched; with the flag `true` every tick passes
the child's result (and state/cursor effects) through unchanged. -/
theorem chance_activation_semantics (ρ : Nat → ℚ) (t : ℚ) (c : Node σ) (env : Env σ) :
    Node.tick ρ (.Chance t c none) env
      = Node.tick ρ (.Chance t c (some (decide (ρ env.rix ≤ t)))) ⟨env.st, env.rix + 1⟩
    ∧ Node.tick ρ (.Chance t c (some false)) env
      = ⟨.ok (false, false), .Chance t c none, env, [.ticked [] false false]⟩
    ∧ (Node.tick ρ (.Chance t c (some true)) env).res = (Node.tick ρ c env).res
    ∧ (Node.tick ρ (.Chance t c (some true)) env).env = (Node.tick ρ c env).env := by
  refine ⟨rfl, rfl, ?_, ?_⟩ <;>
    · cases h : (Node.tick ρ c env).res with
      | error e => simp [Node.tick, h]
      | ok rs => obtain ⟨r, s⟩ := rs; simp [Node.tick, h]

/-- C10: when `Run`'s effect raises, the tick aborts before the `wait`
flag is cleared and before `Node.tick` can exit the activation, so the
behaviour instance is retained with `wait` still set; ticking the
retained node invokes the effect again, succeeding or raising according
to that new invocation — so within one activation the effect runs once
per raising tick plus the final successful one. -/
theorem run_exception_retries_effect (ρ : Nat → ℚ) (w : σ → σ × Except Err Unit)
    (env : Env σ) (st' : σ) (e : Err) (h : w env.st = (st', .error e)) :
    Node.tick ρ (run w) env = ⟨.error e, .Run w (some true), ⟨st', env.rix⟩, []⟩
    ∧ (∀ (env₂ : Env σ) (st₂ : σ), w env₂.st = (st₂, .ok ()) →
        Node.tick ρ (.Run w (some true)) env₂
          = ⟨.ok (true, true), .Run w (some false), ⟨st₂, env₂.rix⟩, [.ticked [] true true]⟩)
    ∧ (∀ (env₂ : Env σ) (st₂ : σ) (e₂ : Err), w env₂.st = (st₂, .error e₂) →
        Node.tick ρ (.Run w (some true)) env₂
          = ⟨.error e₂, .Run w (some true), ⟨st₂, env₂.rix⟩, []⟩) := by
  refine ⟨?_, ?_, ?_⟩
  · simp [Node.tick, run, h]
  · intro env₂ st₂ h₂; simp [Node.tick, h₂]
  · intro env₂ st₂ e₂ h₂; simp [Node.tick, h₂]

/-- Witness for C10: an effect that counts invocations in the state and
raises only the first time is invoked twice within one activation — on
the raising first tick and again on the succeeding second tick. -/
theorem run_exception_retries_effect_witness :
    Node.tick rho0 (run wCount) (⟨0, 0⟩ : Env Nat)
      = ⟨.error (.user 1), .Run wCount (some true), ⟨1, 0⟩, []⟩
    ∧ Node.tick rho0 (.Run wCount (some true)) (⟨1, 0⟩ : Env Nat)
      = ⟨.ok (true, true), .Run wCount (some false), ⟨2, 0⟩, [.ticked [] true true]⟩ :=
  ⟨(run_exception_retries_effect rho0 wCount ⟨0, 0⟩ 1 (.user 1) rfl).1,
   (run_exception_retries_effect rho0 wCount ⟨0, 0⟩ 1 (.user 1) rfl).2.1 ⟨1, 0⟩ 2 rfl⟩

/-- C4: one tick of a `Sequence` with at least one child walks the
pointer over the children in order: activation initializes the pointer
to `0`; a running child returns `(true, child_success)` with the
pointer not advanced and later children untouched; a child failure
returns `(false, false)` immediately, later children untouched; a child
success advances the pointer and continues with the next child in the
same cycle; a pointer that has passed the last child (after a success)
yields `(false, true)`.  The last two conjuncts relate `Node.tick` on
the `Sequence` node to the loop (result, updated children, pointer
update, exit on `running = false`) and unroll the pointer skip. -/
theorem sequence_tick_steps (ρ : Nat → ℚ) (env : Env σ) :
    (∀ (cs : Forest σ),
        Node.tick ρ (.Sequence cs none) env = Node.tick ρ (.Sequence cs (some 0)) env)
    ∧ (∀ (c : Node σ) (tl : Forest σ) (i : Nat) (last : Option Bool) (s : Bool),
        (Node.tick ρ c env).res = .ok (true, s) →
        seqLoop ρ i (.cons c tl) 0 last env
          = ⟨.ok (true, s), .cons (Node.tick ρ c env).node tl, 0, (Node.tick ρ c env).env,
              underTr i (Node.tick ρ c env).tr⟩)
    ∧ (∀ (c : Node σ) (tl : Forest σ) (i : Nat) (last : Option Bool),
        (Node.tick ρ c env).res = .ok (false, false) →
        seqLoop ρ i (.cons c tl) 0 last env
          = ⟨.ok (false, false), .cons (Node.tick ρ c env).node tl, 0, (Node.tick ρ c env).env,
              underTr i (Node.tick ρ c env).tr⟩)
    ∧ (∀ (c : Node σ) (tl : Forest σ) (i : Nat) (last : Option Bool),
        (Node.tick ρ c env).res = .ok (false, true) →
        seqLoop ρ i (.cons c tl) 0 last env
          = ⟨(seqLoop ρ (i + 1) tl 0 (some true) (Node.tick ρ c env).env).res,
              .cons (Node.tick ρ c env).node
                (seqLoop ρ (i + 1) tl 0 (some true) (Node.tick ρ c env).env).rest,
              (seqLoop ρ (i + 1) tl 0 (some true) (Node.tick ρ c env).env).adv + 1,
              (seqLoop ρ (i + 1) tl 0 (some true) (Node.tick ρ c env).env).env,
              underTr i (Node.tick ρ c env).tr
                ++ (seqLoop ρ (i + 1) tl 0 (some true) (Node.tick ρ c env).env).tr⟩)
    ∧ (∀ (i skip : Nat), seqLoop ρ i (.nil : Forest σ) skip (some true) env
          = ⟨.ok (false, true), .nil, 0, env, []⟩)
    ∧ (∀ (cs : Forest σ) (ptr : Nat),
        (Node.tick ρ (.Sequence cs (some ptr)) env).res = (seqLoop ρ 0 cs ptr none env).res
        ∧ (Node.tick ρ (.Sequence cs (some ptr)) env).node
            = .Sequence (seqLoop ρ 0 cs ptr none env).rest
                (match (seqLoop ρ 0 cs ptr none env).res with
                 | .ok (false, _) => none
                 | _ => some (ptr + (seqLoop ρ 0 cs ptr none env).adv)))
    ∧ (∀ (c : Node σ) (tl : Forest σ) (i skip : Nat) (last : Option Bool),
        seqLoop ρ i (.cons c tl) (skip + 1) last env
          = ⟨(seqLoop ρ (i + 1) tl skip last env).res,
              .cons c (seqLoop ρ (i + 1) tl skip last env).rest,
              (seqLoop ρ (i + 1) tl skip last env).adv,
              (seqLoop ρ (i + 1) tl skip last env).env,
              (seqLoop ρ (i + 1) tl skip last env).tr⟩) := by
  refine ⟨fun cs => rfl, ?_, ?_, ?_, fun i skip => rfl, ?_, fun c tl i skip last => rfl⟩
  · intro c tl i last s h
    simp only [seqLoop, h]
  · intro c tl i last h
    simp only [seqLoop, h]
  · intro c tl i last h
    simp only [seqLoop, h]
  · intro cs ptr
    cases hr : (seqLoop ρ 0 cs ptr none env).res with
    | error e => exact ⟨by simp [Node.tick, hr], by simp [Node.tick, hr]⟩
    | ok rs =>
        obtain ⟨r, s⟩ := rs
        cases r
        · exact ⟨by simp [Node.tick, hr], by simp [Node.tick, hr]⟩
        · exact ⟨by simp [Node.tick, hr], by simp [Node.tick, hr]⟩

/-- Witness for C4: a singleton sequence whose child reports running
keeps the pointer at `0`; a child that finishes with success advances
past the end of the children and the cycle ends `(false, true)`. -/
theorem sequence_tick_steps_witness :
    seqLoop rho0 0 (.cons (wait 1) .nil) 0 none (⟨(), 0⟩ : Env Unit)
      = ⟨.ok (true, true), .cons (.Wait 1 (some 0)) .nil, 0, ⟨(), 0⟩, [.ticked [0] true true]⟩
    ∧ seqLoop rho0 0 (.cons (evalb (fun s => (s, .ok true))) .nil) 0 none (⟨(), 0⟩ : Env Unit)
      = ⟨.ok (false, true), .cons (.EvalB (fun s => (s, .ok true)) none) .nil, 1, ⟨(), 0⟩,
          [.ticked [0] false true]⟩ :=
  ⟨(sequence_tick_steps rho0 ⟨(), 0⟩).2.1 (wait 1) .nil 0 none true rfl,
   (sequence_tick_steps rho0 ⟨(), 0⟩).2.2.2.1 (evalb (fun s => (s, .ok true))) .nil 0 none rfl⟩

/-- Structural induction over a `Forest` alone (the `induction` tactic
cannot use the mutual recursor directly). -/
theorem Forest.inductionOn {motive : Forest σ → Prop}
    (nil : motive .nil)
    (cons : ∀ (c : Node σ) (tl : Forest σ), motive tl → motive (.cons c tl)) :
    ∀ cs, motive cs
  | .nil => nil
  | .cons c tl => cons c tl (Forest.inductionOn nil cons tl)

/-- A trace re-prefixed under a child index contains no root-level
deactivation event. -/
theorem deact_nil_not_mem_underTr (i : Nat) (tr : List Ev) :
    Ev.deact [] ∉ underTr i tr := by
  intro h
  obtain ⟨e, _, he⟩ := List.mem_map.mp h
  cases e <;> simp [Ev.under] at he

/-- A root tick event list contains no deactivation event. -/
theorem deact_nil_not_mem_tickedEv (r : Except Err (Bool × Bool)) :
    Ev.deact [] ∉ tickedEv r := by
  cases r with
  | error e => simp [tickedEv]
  | ok rs => obtain ⟨a, b⟩ := rs; simp [tickedEv]

/-- The `Sequence` loop emits no root-level deactivation event. -/
theorem seqLoop_deact_nil (ρ : Nat → ℚ) :
    ∀ (cs : Forest σ) (i skip : Nat) (last : Option Bool) (env : Env σ),
      Ev.deact [] ∉ (seqLoop ρ i cs skip last env).tr := by
  intro cs
  induction cs using Forest.inductionOn with
  | nil => intro i skip last env; cases last <;> simp [seqLoop]
  | cons c tl ih =>
      intro i skip last env
      cases skip with
      | zero =>
          simp only [seqLoop]
          split <;> simp [deact_nil_not_mem_underTr, ih]
      | succ skip => simpa [seqLoop] using ih (i + 1) skip last env

/-- The `Select` loop emits no root-level deactivation event. -/
theorem selLoop_deact_nil (ρ : Nat → ℚ) :
    ∀ (cs : Forest σ) (i skip : Nat) (last : Option Bool) (env : Env σ),
      Ev.deact [] ∉ (selLoop ρ i cs skip last env).tr := by
  intro cs
  induction cs using Forest.inductionOn with
  | nil => intro i skip last env; cases last <;> simp [selLoop]
  | cons c tl ih =>
      intro i skip last env
      cases skip with
      | zero =>
          simp only [selLoop]
          split <;> simp [deact_nil_not_mem_underTr, ih]
      | succ skip => simpa [selLoop] using ih (i + 1) skip last env

/-- The `UntilB`/`WhileB` loop emits no root-level deactivation event. -/
theorem allLoop_deact_nil (ρ : Nat → ℚ) :
    ∀ (cs : Forest σ) (i : Nat) (env : Env σ),
      Ev.deact [] ∉ (allLoop ρ i cs env).tr := by
  intro cs
  induction cs using Forest.inductionOn with
  | nil => intro i env; simp [allLoop]
  | cons c tl ih =>
      intro i env
      simp only [allLoop]
      split <;> simp [deact_nil_not_mem_underTr, ih]

/-- No tick ever emits a root-level deactivation event: `deact` events
come only from a `Conditional` deactivating one of its direct branch
children, so they always carry a non-empty path. -/
theorem tick_deact_nil (ρ : Nat → ℚ) (n : Node σ) (env : Env σ) :
    Ev.deact [] ∉ (Node.tick ρ n env).tr := by
  cases n <;>
    simp only [Node.tick] <;>
    (repeat' split) <;>
    simp_all [deact_nil_not_mem_underTr, deact_nil_not_mem_tickedEv,
      seqLoop_deact_nil, selLoop_deact_nil, allLoop_deact_nil]

/-- Direct deactivations distribute over trace concatenation. -/
theorem kidDeacts_append (a b : List Ev) :
    kidDeacts (a ++ b) = kidDeacts a ++ kidDeacts b := by
  induction a with
  | nil => rfl
  | cons e tr ih =>
      cases e with
      | ticked p r s => simpa [kidDeacts] using ih
      | deact p =>
          rcases p with _ | ⟨q, _ | ⟨q2, qs⟩⟩ <;> simpa [kidDeacts] using ih

/-- A child's trace, re-prefixed under its index, contributes no direct
deactivation of the parent's children (its own deactivations sit at
deeper paths), provided it has no root-level deactivation. -/
theorem kidDeacts_underTr (i : Nat) (tr : List Ev) (h : Ev.deact [] ∉ tr) :
    kidDeacts (underTr i tr) = [] := by
  induction tr with
  | nil => rfl
  | cons e tr ih =>
      rw [List.mem_cons] at h
      push_neg at h
      obtain ⟨h1, h2⟩ := h
      cases e with
      | ticked p r s => simpa [underTr, Ev.under, kidDeacts] using ih h2
      | deact p =>
          rcases p with _ | ⟨q, qs⟩
          · exact absurd rfl h1
          · simpa [underTr, Ev.under, kidDeacts] using ih h2

/-- A root tick event contributes no direct deactivation. -/
theorem kidDeacts_tickedEv (r : Except Err (Bool × Bool)) :
    kidDeacts (tickedEv r) = [] := by
  cases r with
  | error e => rfl
  | ok rs => obtain ⟨a, b⟩ := rs; rfl

/-- `Node.exit` on a node whose behaviour slot is present succeeds,
clearing the slot. -/
theorem exit_clear_of_active (n : Node σ) (h : n.active = true) :
    Node.exit n = .ok n.clear := by
  cases n <;> simp_all [Node.exit, Node.active, Node.clear]

/-- C6 (amended): within one activation of a `Conditional` (behaviour
state holding `last_run = lr`), a tick whose condition finishes and
selects branch `v` invokes the deactivation of a branch child exactly
once when a branch was recorded and differs from `v`, and never when no
branch was recorded yet (first selection) or the selection is
unchanged.  The hypothesis that the recorded branch is still active
holds in every run reachable through the public tick entry point. -/
theorem cond_deact_exactly_on_switch (ρ : Nat → ℚ) (cnd tru fls : Node σ) (lr : Option Bool)
    (v : Bool) (env : Env σ)
    (hc : (Node.tick ρ cnd env).res = .ok (false, v))
    (hold : ∀ b, lr = some b → (if b then tru else fls).active = true) :
    kidDeacts (Node.tick ρ (.Conditional cnd tru fls (some lr)) env).tr
      = if lr = none ∨ lr = some v then [] else [if v then 2 else 1] := by
  have hc0 := tick_deact_nil ρ cnd env
  rcases lr with _ | b
  · simp only [Node.tick, Option.getD_some, hc]
    cases v <;>
      simp [kidDeacts_append, kidDeacts_underTr, hc0, tick_deact_nil, kidDeacts_tickedEv]
  · by_cases hbv : b = v
    · subst hbv
      simp only [Node.tick, Option.getD_some, hc, if_pos rfl]
      cases b <;>
        simp [kidDeacts_append, kidDeacts_underTr, hc0, tick_deact_nil, kidDeacts_tickedEv]
    · have hne : ¬(some b = some v) := by simpa using hbv
      cases b
      · have hv : v = true := by cases v <;> simp_all
        subst hv
        have hex := exit_clear_of_active fls (by simpa using hold false rfl)
        simp only [Node.tick, Option.getD_some, hc, if_neg hne, hex]
        simp [kidDeacts_append, kidDeacts_underTr, hc0, tick_deact_nil,
          kidDeacts_tickedEv, kidDeacts]
      · have hv : v = false := by cases v <;> simp_all
        subst hv
        have hex := exit_clear_of_active tru (by simpa using hold true rfl)
        simp only [Node.tick, Option.getD_some, hc, if_neg hne, hex]
        simp [kidDeacts_append, kidDeacts_underTr, hc0, tick_deact_nil,
          kidDeacts_tickedEv, kidDeacts]

/-- C6 counterexample to the claim as stated: in the one-shot
conditional scenario the first root tick selects the true branch (its
tick event at path `[1]`), the second selects the false branch (event
at `[2]`) — the branch selected by the condition's terminal result
differs from the branch selected on the previous tick — yet no
deactivation is ever invoked: the conditional finished on the first
tick, so the second tick is a fresh activation with `last_run = None`. -/
theorem cond_deact_across_activations_counterexample :
    (Ev.ticked [1] false true) ∈ condD1.tr
    ∧ (Ev.ticked [2] false true) ∈ condD2.tr
    ∧ kidDeacts (condD1.tr ++ condD2.tr) = [] := by
  refine ⟨?_, ?_, ?_⟩ <;> decide

/-- Witness for C6 at a concrete mid-activation switch: the recorded
true branch is running, the condition resolves `false`, and exactly one
deactivation (of child 1, the true branch) is invoked. -/
theorem cond_deact_exactly_on_switch_witness :
    kidDeacts (Node.tick rho0
        (.Conditional cndFlag (.Repeat (.Do (fun s => (s, .ok ())) none) (some ()))
          branchRep (some (some true))) (⟨false, 0⟩ : Env Bool)).tr
      = [1] := by
  have h := cond_deact_exactly_on_switch rho0 cndFlag
    (.Repeat (.Do (fun s => (s, .ok ())) none) (some ())) branchRep (some true) false
    ⟨false, 0⟩ rfl (by intro b hb; injection hb with hb1; subst hb1; rfl)
  simpa using h

/-- Root tick results distribute over trace concatenation. -/
theorem roots_append (a b : List Ev) : roots (a ++ b) = roots a ++ roots b := by
  induction a with
  | nil => rfl
  | cons e tr ih =>
      cases e with
      | ticked p r s => rcases p with _ | ⟨q, qs⟩ <;> simpa [roots] using ih
      | deact p => simpa [roots] using ih

/-- A trace re-prefixed under a child index records no root tick. -/
theorem roots_underTr (i : Nat) (tr : List Ev) : roots (underTr i tr) = [] := by
  induction tr with
  | nil => rfl
  | cons e tr ih => cases e <;> simpa [underTr, Ev.under, roots] using ih

/-- Direct child tick events distribute over trace concatenation. -/
theorem kidTicks_append (a b : List Ev) :
    kidTicks (a ++ b) = kidTicks a ++ kidTicks b := by
  induction a with
  | nil => rfl
  | cons e tr ih =>
      cases e with
      | ticked p r s => rcases p with _ | ⟨q, _ | ⟨q2, qs⟩⟩ <;> simpa [kidTicks] using ih
      | deact p => simpa [kidTicks] using ih

/-- A child's trace re-prefixed under index `i` contributes one direct
child tick event per root tick the child completed. -/
theorem kidTicks_underTr (i : Nat) (tr : List Ev) :
    kidTicks (underTr i tr) = (roots tr).map (fun _ => i) := by
  induction tr with
  | nil => rfl
  | cons e tr ih =>
      cases e with
      | ticked p r s => rcases p with _ | ⟨q, qs⟩ <;> simpa [underTr, Ev.under, kidTicks, roots] using ih
      | deact p => simpa [underTr, Ev.under, kidTicks, roots] using ih

/-- The `Sequence` loop records no root tick of its own. -/
theorem seqLoop_roots_nil (ρ : Nat → ℚ) :
    ∀ (cs : Forest σ) (i skip : Nat) (last : Option Bool) (env : Env σ),
      roots (seqLoop ρ i cs skip last env).tr = [] := by
  intro cs
  induction cs using Forest.inductionOn with
  | nil => intro i skip last env; cases last <;> simp [seqLoop, roots]
  | cons c tl ih =>
      intro i skip last env
      cases skip with
      | zero =>
          simp only [seqLoop]
          split <;> simp [roots_append, roots_underTr, ih]
      | succ skip => simpa [seqLoop] using ih (i + 1) skip last env

/-- The `Select` loop records no root tick of its own. -/
theorem selLoop_roots_nil (ρ : Nat → ℚ) :
    ∀ (cs : Forest σ) (i skip : Nat) (last : Option Bool) (env : Env σ),
      roots (selLoop ρ i cs skip last env).tr = [] := by
  intro cs
  induction cs using Forest.inductionOn with
  | nil => intro i skip last env; cases last <;> simp [selLoop, roots]
  | cons c tl ih =>
      intro i skip last env
      cases skip with
      | zero =>
          simp only [selLoop]
          split <;> simp [roots_append, roots_underTr, ih]
      | succ skip => simpa [selLoop] using ih (i + 1) skip last env

/-- The `UntilB`/`WhileB` loop records no root tick of its own. -/
theorem allLoop_roots_nil (ρ : Nat → ℚ) :
    ∀ (cs : Forest σ) (i : Nat) (env : Env σ),
      roots (allLoop ρ i cs env).tr = [] := by
  intro cs
  induction cs using Forest.inductionOn with
  | nil => intro i env; simp [allLoop, roots]
  | cons c tl ih =>
      intro i env
      simp only [allLoop]
      split <;> simp [roots_append, roots_underTr, ih]

/-- Every `Node.tick` records exactly the root tick events of its own
result: one `(running, success)` entry on normal return, none on a
raise (child events all sit under a child index). -/
theorem tick_roots (ρ : Nat → ℚ) (n : Node σ) (env : Env σ) :
    roots (Node.tick ρ n env).tr = roots (tickedEv (Node.tick ρ n env).res) := by
  cases n <;>
    simp only [Node.tick] <;>
    (repeat' split) <;>
    simp_all [roots_append, roots_underTr, seqLoop_roots_nil, selLoop_roots_nil,
      allLoop_roots_nil, tickedEv, roots]

/-- The `UntilB`/`WhileB` loop, when no child raises, ticks every child
exactly once in order (one direct child tick event per child, indices
in increasing order) and collects exactly one result pair per child. -/
theorem allLoop_kidTicks (ρ : Nat → ℚ) :
    ∀ (cs : Forest σ) (i : Nat) (env : Env σ) (results : List (Bool × Bool)),
      (allLoop ρ i cs env).res = .ok results →
      kidTicks (allLoop ρ i cs env).tr = idxRange i cs.length
      ∧ results.length = cs.length := by
  intro cs
  induction cs using Forest.inductionOn with
  | nil =>
      intro i env results h
      simp only [allLoop] at h
      cases h
      exact ⟨rfl, rfl⟩
  | cons c tl ih =>
      intro i env results h
      cases ho : (Node.tick ρ c env).res with
      | error e => simp only [allLoop, ho] at h; cases h
      | ok rs =>
          simp only [allLoop, ho] at h ⊢
          cases hr : (allLoop ρ (i + 1) tl (Node.tick ρ c env).env).res with
          | error e => simp only [hr, Except.map] at h; cases h
          | ok results' =>
              simp only [hr, Except.map] at h
              cases h
              obtain ⟨k1, k2⟩ := ih (i + 1) (Node.tick ρ c env).env results' hr
              refine ⟨?_, by simp [Forest.length, k2]⟩
              obtain ⟨r, s⟩ := rs
              have hroot : roots (Node.tick ρ c env).tr = [(r, s)] := by
                rw [tick_roots, ho]; rfl
              simp [kidTicks_append, kidTicks_underTr, hroot, k1, Forest.length, idxRange]

/-- C5: on every tick of a `WhileB` node with at least one child, every
child is ticked exactly once in order; if every child that finished
this cycle finished with success (vacuously if none finished, i.e. all
collected pairs satisfy `running ∨ success`), the tick returns
`(true, true)`; if any finished child failed, it returns
`(false, true)` — the composite's terminal success value is always
`true`. -/
theorem whileb_tick_semantics (ρ : Nat → ℚ) (cs : Forest σ) (slot : Option Unit)
    (env : Env σ) (results : List (Bool × Bool))
    (hn : cs.length ≠ 0)
    (h : (allLoop ρ 0 cs env).res = .ok results) :
    (Node.tick ρ (.WhileB cs slot) env).res
      = .ok (if results.all (fun p => p.1 || p.2) then (true, true) else (false, true))
    ∧ kidTicks (Node.tick ρ (.WhileB cs slot) env).tr = idxRange 0 cs.length := by
  have hk := (allLoop_kidTicks ρ cs 0 env results h).1
  constructor
  · simp only [Node.tick, h]
    by_cases hall : results.all (fun p => p.1 || p.2) <;> simp [hall]
  · simp only [Node.tick, h]
    by_cases hall : results.all (fun p => p.1 || p.2) <;>
      simp [hall, kidTicks_append, hk, kidTicks]

/-- Witness for C5: a two-child `whileb` (a succeeding predicate and a
running wait) ticks both children, in order, and keeps running. -/
theorem whileb_tick_semantics_witness :
    (Node.tick rho0
        (.WhileB (.cons (evalb (fun s => (s, .ok true))) (.cons (wait 1) .nil)) none)
        (⟨(), 0⟩ : Env Unit)).res = .ok (true, true)
    ∧ kidTicks (Node.tick rho0
        (.WhileB (.cons (evalb (fun s => (s, .ok true))) (.cons (wait 1) .nil)) none)
        (⟨(), 0⟩ : Env Unit)).tr = [0, 1] := by
  have h := whileb_tick_semantics rho0
    (.cons (evalb (fun s => (s, .ok true))) (.cons (wait 1) .nil)) none (⟨(), 0⟩ : Env Unit)
    [(false, true), (true, true)] (by decide) rfl
  simpa [idxRange] using h

/-- A child delivered by `Forest.get?` is smaller than its forest. -/
theorem sizeOf_get?_lt : ∀ (cs : Forest σ) (j : Nat) (c : Node σ),
    cs.get? j = some c → sizeOf c < sizeOf cs := by
  intro cs
  induction cs using Forest.inductionOn with
  | nil => intro j c h; simp [Forest.get?] at h
  | cons hd tl ih =>
      intro j c h
      cases j with
      | zero =>
          simp only [Forest.get?, Option.some.injEq] at h
          subst h
          simp only [Forest.cons.sizeOf_spec]
          omega
      | succ j =>
          have := ih j c (by simpa [Forest.get?] using h)
          simp only [Forest.cons.sizeOf_spec]
          omega

/-- If no member of the children suffix can return normally with
`(running, success) = (true, false)`, neither can the `Sequence` loop:
a running result is the running child's own pair, passed through
unchanged. -/
theorem seqLoop_run_true (ρ : Nat → ℚ) :
    ∀ (cs : Forest σ),
      (∀ j c, cs.get? j = some c →
          ∀ (env : Env σ), (Node.tick ρ c env).res ≠ .ok (true, false)) →
      ∀ (i skip : Nat) (last : Option Bool) (env : Env σ),
        (seqLoop ρ i cs skip last env).res ≠ .ok (true, false) := by
  intro cs
  induction cs using Forest.inductionOn with
  | nil => intro _ i skip last env h; cases last <;> simp [seqLoop] at h
  | cons c tl ih =>
      intro hmem i skip last env h
      cases skip with
      | succ skip =>
          exact ih (fun j c hc => hmem (j + 1) c hc) (i + 1) skip last env
            (by simpa [seqLoop] using h)
      | zero =>
          simp only [seqLoop] at h
          cases ho : (Node.tick ρ c env).res with
          | error e => simp only [ho] at h; cases h
          | ok rs =>
              obtain ⟨r', s'⟩ := rs
              cases r' with
              | true =>
                  simp only [ho] at h
                  have hss : s' = false := by simpa using h
                  subst hss
                  exact hmem 0 c rfl env ho
              | false =>
                  cases s' with
                  | false => simp only [ho] at h; simp at h
                  | true =>
                      simp only [ho] at h
                      exact ih (fun j c hc => hmem (j + 1) c hc) (i + 1) 0 (some true)
                        (Node.tick ρ c env).env (by simpa using h)

/-- The `Select` loop analogue of `seqLoop_run_true`. -/
theorem selLoop_run_true (ρ : Nat → ℚ) :
    ∀ (cs : Forest σ),
      (∀ j c, cs.get? j = some c →
          ∀ (env : Env σ), (Node.tick ρ c env).res ≠ .ok (true, false)) →
      ∀ (i skip : Nat) (last : Option Bool) (env : Env σ),
        (selLoop ρ i cs skip last env).res ≠ .ok (true, false) := by
  intro cs
  induction cs using Forest.inductionOn with
  | nil => intro _ i skip last env h; cases last <;> simp [selLoop] at h
  | cons c tl ih =>
      intro hmem i skip last env h
      cases skip with
      | succ skip =>
          exact ih (fun j c hc => hmem (j + 1) c hc) (i + 1) skip last env
            (by simpa [selLoop] using h)
      | zero =>
          simp only [selLoop] at h
          cases ho : (Node.tick ρ c env).res with
          | error e => simp only [ho] at h; cases h
          | ok rs =>
              obtain ⟨r', s'⟩ := rs
              cases r' with
              | true =>
                  simp only [ho] at h
                  have hss : s' = false := by simpa using h
                  subst hss
                  exact hmem 0 c rfl env ho
              | false =>
                  cases s' with
                  | true => simp only [ho] at h; simp at h
                  | false =>
                      simp only [ho] at h
                      exact ih (fun j c hc => hmem (j + 1) c hc) (i + 1) 0 (some false)
                        (Node.tick ρ c env).env (by simpa using h)

/-- Size-bounded induction core of C9: no tick ever returns normally
with `running = true` and `success = false`. -/
theorem run_succ_aux (ρ : Nat → ℚ) :
    ∀ (N : Nat) (n : Node σ), sizeOf n < N →
      ∀ (env : Env σ), (Node.tick ρ n env).res ≠ .ok (true, false) := by
  intro N
  induction N with
  | zero => intro n hn; exact absurd hn (Nat.not_lt_zero _)
  | succ N ihN =>
      intro n hn env hres
      cases n with
      | Do w slot =>
          simp only [Node.tick] at hres
          (repeat' split at hres) <;> simp_all
      | Run w slot =>
          simp only [Node.tick] at hres
          (repeat' split at hres) <;> simp_all
      | Repeat c slot =>
          simp only [Node.tick] at hres
          (repeat' split at hres) <;> simp_all
      | Chance t c slot =>
          have hc : sizeOf c < N := by
            simp only [Node.Chance.sizeOf_spec] at hn; omega
          simp only [Node.tick] at hres
          (repeat' split at hres) <;> simp_all
      | NotB c slot =>
          simp only [Node.tick] at hres
          (repeat' split at hres) <;> simp_all
      | Wait steps slot =>
          simp only [Node.tick] at hres
          (repeat' split at hres) <;> simp_all
      | EvalB w slot =>
          simp only [Node.tick] at hres
          (repeat' split at hres) <;> simp_all
      | Sequence cs slot =>
          have hcs : ∀ j c, cs.get? j = some c →
              ∀ (env : Env σ), (Node.tick ρ c env).res ≠ .ok (true, false) := by
            intro j c hj
            have h1 := sizeOf_get?_lt cs j c hj
            have h2 : sizeOf c < N := by
              simp only [Node.Sequence.sizeOf_spec] at hn; omega
            exact ihN c h2
          simp only [Node.tick] at hres
          cases hl : (seqLoop ρ 0 cs (slot.getD 0) none env).res with
          | error e => simp only [hl] at hres; cases hres
          | ok rs =>
              obtain ⟨r', s'⟩ := rs
              cases r' with
              | true =>
                  simp only [hl] at hres
                  have hss : s' = false := by simpa using hres
                  subst hss
                  exact seqLoop_run_true ρ cs hcs 0 (slot.getD 0) none env hl
              | false => simp only [hl] at hres; simp at hres
      | Select cs slot =>
          have hcs : ∀ j c, cs.get? j = some c →
              ∀ (env : Env σ), (Node.tick ρ c env).res ≠ .ok (true, false) := by
            intro j c hj
            have h1 := sizeOf_get?_lt cs j c hj
            have h2 : sizeOf c < N := by
              simp only [Node.Select.sizeOf_spec] at hn; omega
            exact ihN c h2
          simp only [Node.tick] at hres
          cases hl : (selLoop ρ 0 cs (slot.getD 0) none env).res with
          | error e => simp only [hl] at hres; cases hres
          | ok rs =>
              obtain ⟨r', s'⟩ := rs
              cases r' with
              | true =>
                  simp only [hl] at hres
                  have hss : s' = false := by simpa using hres
                  subst hss
                  exact selLoop_run_true ρ cs hcs 0 (slot.getD 0) none env hl
              | false => simp only [hl] at hres; simp at hres
      | UntilB cs slot =>
          simp only [Node.tick] at hres
          (repeat' split at hres) <;> simp_all
      | WhileB cs slot =>
          simp only [Node.tick] at hres
          (repeat' split at hres) <;> simp_all
      | Conditional cnd tru fls slot =>
          have hT : sizeOf tru < N := by
            simp only [Node.Conditional.sizeOf_spec] at hn; omega
          have hF : sizeOf fls < N := by
            simp only [Node.Conditional.sizeOf_spec] at hn; omega
          simp only [Node.tick] at hres
          (repeat' split at hres) <;> simp_all

/-- C9: for every tree (whatever the behaviour slots hold) and every
tick that returns normally, `running = true` implies `success = true`;
in particular the `child_success` that `Sequence` and `Select` pass
through while a child is running is always `true`. -/
theorem running_implies_success (ρ : Nat → ℚ) (n : Node σ) (env : Env σ) (r s : Bool)
    (hres : (Node.tick ρ n env).res = .ok (r, s)) (hr : r = true) : s = true := by
  subst hr
  cases s with
  | true => rfl
  | false => exact absurd hres (run_succ_aux ρ (sizeOf n + 1) n (Nat.lt_succ_self _) env)

/-- Witness for C9 at a running `run` leaf. -/
theorem running_implies_success_witness : (true : Bool) = true :=
  running_implies_success rho0 (run (fun _ => ((), Except.ok ())) : Node Unit)
    ⟨(), 0⟩ true true rfl rfl

/-- Scanning a concatenated trace: the later part wins when it has a
relevant event. -/
theorem lastActive_append (a b : List Ev) (p : List Nat) :
    lastActive (a ++ b) p
      = match lastActive b p with
        | some x => some x
        | none => lastActive a p := by
  induction a with
  | nil => cases hb : lastActive b p <;> simp [lastActive, hb]
  | cons e tr ih =>
      cases hb : lastActive b p <;>
        · rw [List.cons_append]
          simp only [lastActive, ih, hb]

/-- A node's `ticked` root event determines `lastActive` at the root. -/
theorem lastActive_root_ticked (tr : List Ev) (r s : Bool) :
    lastActive (tr ++ [.ticked [] r s]) [] = some r := by
  rw [lastActive_append]; rfl

/-- A root deactivation event closes the root activation. -/
theorem lastActive_root_deact (tr : List Ev) :
    lastActive (tr ++ [.deact []]) [] = some false := by
  rw [lastActive_append]; rfl

/-- Child paths scan through the child projection of the trace. -/
theorem lastActive_subT : ∀ (tr : List Ev) (i : Nat) (p : List Nat),
    lastActive tr (i :: p) = lastActive (subT i tr) p := by
  intro tr
  induction tr with
  | nil => intro i p; rfl
  | cons e tr ih =>
      intro i p
      have base := ih i p
      cases e with
      | ticked q r s =>
          rcases q with _ | ⟨j, qs⟩
          · simp only [lastActive, subT, base]
            cases lastActive (subT i tr) p <;> simp
          · by_cases hj : j = i
            · rw [hj]
              simp only [lastActive, subT, if_pos rfl, base]
              cases lastActive (subT i tr) p <;> simp
            · simp only [lastActive, subT, if_neg hj, base]
              cases lastActive (subT i tr) p <;> simp [hj]
      | deact q =>
          rcases q with _ | ⟨j, qs⟩
          · simp only [lastActive, subT, base]
            cases lastActive (subT i tr) p <;> simp
          · by_cases hj : j = i
            · rw [hj]
              simp only [lastActive, subT, if_pos rfl, base]
              cases lastActive (subT i tr) p <;> simp
            · simp only [lastActive, subT, if_neg hj, base]
              cases lastActive (subT i tr) p <;> simp [hj]

/-- Child projection distributes over concatenation. -/
theorem subT_append : ∀ (a b : List Ev) (i : Nat),
    subT i (a ++ b) = subT i a ++ subT i b := by
  intro a
  induction a with
  | nil => intro b i; rfl
  | cons e tr ih =>
      intro b i
      cases e with
      | ticked q r s =>
          rcases q with _ | ⟨j, qs⟩
          · simpa [subT] using ih b i
          · by_cases hj : j = i <;> simp [subT, hj, ih b i]
      | deact q =>
          rcases q with _ | ⟨j, qs⟩
          · simpa [subT] using ih b i
          · by_cases hj : j = i <;> simp [subT, hj, ih b i]

/-- Projecting the same child a trace was re-prefixed under recovers
the child's trace. -/
theorem subT_underTr_same (i : Nat) (tr : List Ev) :
    subT i (underTr i tr) = tr := by
  induction tr with
  | nil => rfl
  | cons e tr ih => cases e <;> simp [underTr, Ev.under, subT, ih] <;> simpa [underTr] using ih

/-- Projecting a different child of a re-prefixed trace gives nothing. -/
theorem subT_underTr_ne (i j : Nat) (h : j ≠ i) (tr : List Ev) :
    subT i (underTr j tr) = [] := by
  induction tr with
  | nil => rfl
  | cons e tr ih =>
      have ih2 : subT i (List.map (Ev.under j) tr) = [] := by simpa [underTr] using ih
      cases e <;> simp [underTr, Ev.under, subT, h, ih2]

/-- A root tick event has no child projection. -/
theorem subT_tickedEv (i : Nat) (res : Except Err (Bool × Bool)) :
    subT i (tickedEv res) = [] := by
  cases res with
  | error e => rfl
  | ok rs => obtain ⟨r, s⟩ := rs; rfl

/-- Projecting a direct branch deactivation: the deactivated branch
sees a root deactivation, other children see nothing. -/
theorem subT_deact_one (i j : Nat) :
    subT i [Ev.deact [j]] = if j = i then [Ev.deact []] else [] := by
  by_cases hj : j = i <;> simp [subT, hj]

/-- A root tick event has no child projection (event-literal form). -/
theorem subT_root_ticked (i : Nat) (r s : Bool) :
    subT i [Ev.ticked [] r s] = [] := rfl

/-- The lifecycle invariant decomposes into the node's own slot versus
the root of the trace, and each child versus its trace projection. -/
theorem consistent_iff (n : Node σ) (tr : List Ev) :
    Consistent n tr ↔
      ((n.active = true ↔ lastActive tr [] = some true)
      ∧ ∀ i c, childAt n i = some c → Consistent c (subT i tr)) := by
  constructor
  · intro h
    constructor
    · exact h [] n.active rfl
    · intro i c hic q b hq
      have h2 := h (i :: q) b (by simp [slotAt, hic, hq])
      rw [lastActive_subT] at h2
      exact h2
  · rintro ⟨h0, hc⟩ p b hp
    cases p with
    | nil =>
        have hb : n.active = b := by simpa [slotAt] using hp
        subst hb
        exact h0
    | cons i q =>
        cases hic : childAt n i with
        | none => simp [slotAt, hic] at hp
        | some c =>
            have hq : slotAt c q = some b := by simpa [slotAt, hic] using hp
            have := hc i c hic q b hq
            rw [lastActive_subT]
            exact this

/-- Clearing a slot leaves the node inactive. -/
theorem clear_active (n : Node σ) : (Node.clear n).active = false := by
  cases n <;> rfl

/-- Clearing a slot does not touch the children. -/
theorem childAt_clear (n : Node σ) (i : Nat) :
    childAt (Node.clear n) i = childAt n i := by
  cases n <;> rcases i with _ | _ | _ | i <;> rfl

/-- A successful `Node.exit` yields the node with its slot cleared. -/
theorem exit_ok_clear {n m : Node σ} (h : Node.exit n = .ok m) : m = Node.clear n := by
  cases n <;> simp only [Node.exit] at h <;> split at h <;> simp_all [Node.clear]

/-- A consistent node stays consistent after an explicit deactivation:
its slot is cleared and the trace gains a root deactivation event. -/
theorem consistent_clear_deact (n : Node σ) (tr : List Ev) (h : Consistent n tr) :
    Consistent (Node.clear n) (tr ++ [.deact []]) := by
  rw [consistent_iff] at h ⊢
  obtain ⟨h0, hc⟩ := h
  constructor
  · rw [clear_active, lastActive_root_deact]
    simp
  · intro i c hic
    rw [childAt_clear] at hic
    have := hc i c hic
    rw [subT_append]
    simpa [subT] using this

/-- The `Sequence` loop touches no child left of its starting index. -/
theorem seqLoop_subT_nil (ρ : Nat → ℚ) :
    ∀ (cs : Forest σ) (i skip : Nat) (last : Option Bool) (env : Env σ) (m : Nat),
      m < i → subT m (seqLoop ρ i cs skip last env).tr = [] := by
  intro cs
  induction cs using Forest.inductionOn with
  | nil => intro i skip last env m hm; cases last <;> rfl
  | cons c tl ih =>
      intro i skip last env m hm
      cases skip with
      | succ skip => simpa [seqLoop] using ih (i + 1) skip last env m (by omega)
      | zero =>
          have hi : i ≠ m := by omega
          have hm1 : m < i + 1 := by omega
          simp only [seqLoop]
          cases ho : (Node.tick ρ c env).res with
          | error e => simp [subT_underTr_ne m i hi]
          | ok rs =>
              obtain ⟨r', s'⟩ := rs
              cases r' with
              | true => simp [subT_underTr_ne m i hi]
              | false =>
                  cases s' with
                  | false => simp [subT_underTr_ne m i hi]
                  | true =>
                      simp [subT_append, subT_underTr_ne m i hi,
                        ih (i + 1) 0 (some true) (Node.tick ρ c env).env m hm1]

/-- The `Select` loop touches no child left of its starting index. -/
theorem selLoop_subT_nil (ρ : Nat → ℚ) :
    ∀ (cs : Forest σ) (i skip : Nat) (last : Option Bool) (env : Env σ) (m : Nat),
      m < i → subT m (selLoop ρ i cs skip last env).tr = [] := by
  intro cs
  induction cs using Forest.inductionOn with
  | nil => intro i skip last env m hm; cases last <;> rfl
  | cons c tl ih =>
      intro i skip last env m hm
      cases skip with
      | succ skip => simpa [selLoop] using ih (i + 1) skip last env m (by omega)
      | zero =>
          have hi : i ≠ m := by omega
          have hm1 : m < i + 1 := by omega
          simp only [selLoop]
          cases ho : (Node.tick ρ c env).res with
          | error e => simp [subT_underTr_ne m i hi]
          | ok rs =>
              obtain ⟨r', s'⟩ := rs
              cases r' with
              | true => simp [subT_underTr_ne m i hi]
              | false =>
                  cases s' with
                  | true => simp [subT_underTr_ne m i hi]
                  | false =>
                      simp [subT_append, subT_underTr_ne m i hi,
                        ih (i + 1) 0 (some false) (Node.tick ρ c env).env m hm1]

/-- The `UntilB`/`WhileB` loop touches no child left of its starting
index. -/
theorem allLoop_subT_nil (ρ : Nat → ℚ) :
    ∀ (cs : Forest σ) (i : Nat) (env : Env σ) (m : Nat),
      m < i → subT m (allLoop ρ i cs env).tr = [] := by
  intro cs
  induction cs using Forest.inductionOn with
  | nil => intro i env m hm; rfl
  | cons c tl ih =>
      intro i env m hm
      have hi : i ≠ m := by omega
      have hm1 : m < i + 1 := by omega
      simp only [allLoop]
      cases ho : (Node.tick ρ c env).res with
      | error e => simp [subT_underTr_ne m i hi]
      | ok rs =>
          simp [subT_append, subT_underTr_ne m i hi,
            ih (i + 1) (Node.tick ρ c env).env m hm1]

/-- Consistency transfer for the `Sequence` loop: if every child (at
its absolute index `i + j`) is consistent with the trace so far and
every child preserves consistency, then after a normally-returning loop
pass every updated child is consistent with the extended trace —
ticked children by their own tick, children skipped or not reached by
events at other indices only. -/
theorem seqLoop_consistent (ρ : Nat → ℚ) :
    ∀ (cs : Forest σ),
      (∀ j c, cs.get? j = some c → TickPreserves ρ c) →
      ∀ (i skip : Nat) (last : Option Bool) (env : Env σ) (tr : List Ev) (rs : Bool × Bool),
        (∀ j c, cs.get? j = some c → Consistent c (subT (i + j) tr)) →
        (seqLoop ρ i cs skip last env).res = .ok rs →
        ∀ j c', (seqLoop ρ i cs skip last env).rest.get? j = some c' →
          Consistent c' (subT (i + j) (tr ++ (seqLoop ρ i cs skip last env).tr)) := by
  intro cs
  induction cs using Forest.inductionOn with
  | nil =>
      intro _ i skip last env tr rs hcons hres j c' hrest
      cases last with
      | none => simp [seqLoop] at hres
      | some s => simp [seqLoop, Forest.get?] at hrest
  | cons c tl ih =>
      intro hmem i skip last env tr rs hcons hres j c' hrest
      cases skip with
      | succ skip =>
          have hres2 : (seqLoop ρ (i + 1) tl skip last env).res = .ok rs := by
            simpa [seqLoop] using hres
          cases j with
          | zero =>
              have hc0 : c = c' := by simpa [seqLoop, Forest.get?] using hrest
              subst hc0
              have hsub : subT i (seqLoop ρ (i + 1) tl skip last env).tr = [] :=
                seqLoop_subT_nil ρ tl (i + 1) skip last env i (by omega)
              have hbase := hcons 0 c rfl
              have htr : (seqLoop ρ i (.cons c tl) (skip + 1) last env).tr
                  = (seqLoop ρ (i + 1) tl skip last env).tr := rfl
              rw [htr]
              simpa [subT_append, hsub] using hbase
          | succ j =>
              have hrest2 : (seqLoop ρ (i + 1) tl skip last env).rest.get? j = some c' := by
                simpa [seqLoop, Forest.get?] using hrest
              have hshift : ∀ j c, tl.get? j = some c →
                  Consistent c (subT ((i + 1) + j) tr) := by
                intro j c hc
                have := hcons (j + 1) c (by simpa [Forest.get?] using hc)
                have harith : i + (j + 1) = (i + 1) + j := by omega
                rwa [harith] at this
              have := ih (fun j c hc => hmem (j + 1) c (by simpa [Forest.get?] using hc))
                (i + 1) skip last env tr rs hshift hres2 j c' hrest2
              have harith : (i + 1) + j = i + (j + 1) := by omega
              rw [harith] at this
              have htr : (seqLoop ρ i (.cons c tl) (skip + 1) last env).tr
                  = (seqLoop ρ (i + 1) tl skip last env).tr := rfl
              rw [htr]
              exact this
      | zero =>
          have hmem0 : TickPreserves ρ c := hmem 0 c rfl
          have hbase0 : Consistent c (subT i tr) := by simpa using hcons 0 c rfl
          simp only [seqLoop] at hres hrest ⊢
          cases ho : (Node.tick ρ c env).res with
          | error e => simp only [ho] at hres; cases hres
          | ok rs0 =>
              obtain ⟨r0, s0⟩ := rs0
              have hstep : Consistent (Node.tick ρ c env).node (subT i tr ++ (Node.tick ρ c env).tr) :=
                hmem0 env (subT i tr) (r0, s0) hbase0 ho
              cases r0 with
              | true =>
                  simp only [ho] at hres hrest ⊢
                  cases j with
                  | zero =>
                      have hc0 : (Node.tick ρ c env).node = c' := by
                        simpa [Forest.get?] using hrest
                      rw [← hc0]
                      simpa [subT_append, subT_underTr_same] using hstep
                  | succ j =>
                      have hc1 : tl.get? j = some c' := by simpa [Forest.get?] using hrest
                      have hb := hcons (j + 1) c' (by simpa [Forest.get?] using hc1)
                      simpa [subT_append, subT_underTr_ne (i + (j + 1)) i (by omega)] using hb
              | false =>
                  cases s0 with
                  | false =>
                      simp only [ho] at hres hrest ⊢
                      cases j with
                      | zero =>
                          have hc0 : (Node.tick ρ c env).node = c' := by
                            simpa [Forest.get?] using hrest
                          rw [← hc0]
                          simpa [subT_append, subT_underTr_same] using hstep
                      | succ j =>
                          have hc1 : tl.get? j = some c' := by simpa [Forest.get?] using hrest
                          have hb := hcons (j + 1) c' (by simpa [Forest.get?] using hc1)
                          simpa [subT_append, subT_underTr_ne (i + (j + 1)) i (by omega)] using hb
                  | true =>
                      simp only [ho] at hres hrest ⊢
                      have hres2 : (seqLoop ρ (i + 1) tl 0 (some true) (Node.tick ρ c env).env).res
                          = .ok rs := by simpa using hres
                      cases j with
                      | zero =>
                          have hc0 : (Node.tick ρ c env).node = c' := by
                            simpa [Forest.get?] using hrest
                          rw [← hc0]
                          have hsub : subT i (seqLoop ρ (i + 1) tl 0 (some true)
                              (Node.tick ρ c env).env).tr = [] :=
                            seqLoop_subT_nil ρ tl (i + 1) 0 (some true) _ i (by omega)
                          simpa [subT_append, subT_underTr_same, hsub] using hstep
                      | succ j =>
                          have hc1 : (seqLoop ρ (i + 1) tl 0 (some true)
                              (Node.tick ρ c env).env).rest.get? j = some c' := by
                            simpa [Forest.get?] using hrest
                          have hshift : ∀ j2 c2, tl.get? j2 = some c2 →
                              Consistent c2 (subT ((i + 1) + j2) (tr ++ underTr i (Node.tick ρ c env).tr)) := by
                            intro j2 c2 hc2
                            have hb := hcons (j2 + 1) c2 (by simpa [Forest.get?] using hc2)
                            have harith : i + (j2 + 1) = (i + 1) + j2 := by omega
                            rw [harith] at hb
                            simpa [subT_append, subT_underTr_ne ((i + 1) + j2) i (by omega)] using hb
                          have := ih (fun j2 c2 hc2 => hmem (j2 + 1) c2 (by simpa [Forest.get?] using hc2))
                            (i + 1) 0 (some true) (Node.tick ρ c env).env
                            (tr ++ underTr i (Node.tick ρ c env).tr) rs hshift hres2 j c' hc1
                          have harith : (i + 1) + j = i + (j + 1) := by omega
                          rw [harith] at this
                          simpa [List.append_assoc] using this

/-- Consistency transfer for the `Select` loop (mirror image of
`seqLoop_consistent` with success and failure swapped). -/
theorem selLoop_consistent (ρ : Nat → ℚ) :
    ∀ (cs : Forest σ),
      (∀ j c, cs.get? j = some c → TickPreserves ρ c) →
      ∀ (i skip : Nat) (last : Option Bool) (env : Env σ) (tr : List Ev) (rs : Bool × Bool),
        (∀ j c, cs.get? j = some c → Consistent c (subT (i + j) tr)) →
        (selLoop ρ i cs skip last env).res = .ok rs →
        ∀ j c', (selLoop ρ i cs skip last env).rest.get? j = some c' →
          Consistent c' (subT (i + j) (tr ++ (selLoop ρ i cs skip last env).tr)) := by
  intro cs
  induction cs using Forest.inductionOn with
  | nil =>
      intro _ i skip last env tr rs hcons hres j c' hrest
      cases last with
      | none => simp [selLoop] at hres
      | some s => simp [selLoop, Forest.get?] at hrest
  | cons c tl ih =>
      intro hmem i skip last env tr rs hcons hres j c' hrest
      cases skip with
      | succ skip =>
          have hres2 : (selLoop ρ (i + 1) tl skip last env).res = .ok rs := by
            simpa [selLoop] using hres
          cases j with
          | zero =>
              have hc0 : c = c' := by simpa [selLoop, Forest.get?] using hrest
              subst hc0
              have hsub : subT i (selLoop ρ (i + 1) tl skip last env).tr = [] :=
                selLoop_subT_nil ρ tl (i + 1) skip last env i (by omega)
              have hbase := hcons 0 c rfl
              have htr : (selLoop ρ i (.cons c tl) (skip + 1) last env).tr
                  = (selLoop ρ (i + 1) tl skip last env).tr := rfl
              rw [htr]
              simpa [subT_append, hsub] using hbase
          | succ j =>
              have hrest2 : (selLoop ρ (i + 1) tl skip last env).rest.get? j = some c' := by
                simpa [selLoop, Forest.get?] using hrest
              have hshift : ∀ j2 c2, tl.get? j2 = some c2 →
                  Consistent c2 (subT ((i + 1) + j2) tr) := by
                intro j2 c2 hc2
                have := hcons (j2 + 1) c2 (by simpa [Forest.get?] using hc2)
                have harith : i + (j2 + 1) = (i + 1) + j2 := by omega
                rwa [harith] at this
              have := ih (fun j2 c2 hc2 => hmem (j2 + 1) c2 (by simpa [Forest.get?] using hc2))
                (i + 1) skip last env tr rs hshift hres2 j c' hrest2
              have harith : (i + 1) + j = i + (j + 1) := by omega
              rw [harith] at this
              have htr : (selLoop ρ i (.cons c tl) (skip + 1) last env).tr
                  = (selLoop ρ (i + 1) tl skip last env).tr := rfl
              rw [htr]
              exact this
      | zero =>
          have hmem0 : TickPreserves ρ c := hmem 0 c rfl
          have hbase0 : Consistent c (subT i tr) := by simpa using hcons 0 c rfl
          simp only [selLoop] at hres hrest ⊢
          cases ho : (Node.tick ρ c env).res with
          | error e => simp only [ho] at hres; cases hres
          | ok rs0 =>
              obtain ⟨r0, s0⟩ := rs0
              have hstep : Consistent (Node.tick ρ c env).node (subT i tr ++ (Node.tick ρ c env).tr) :=
                hmem0 env (subT i tr) (r0, s0) hbase0 ho
              cases r0 with
              | true =>
                  simp only [ho] at hres hrest ⊢
                  cases j with
                  | zero =>
                      have hc0 : (Node.tick ρ c env).node = c' := by
                        simpa [Forest.get?] using hrest
                      rw [← hc0]
                      simpa [subT_append, subT_underTr_same] using hstep
                  | succ j =>
                      have hc1 : tl.get? j = some c' := by simpa [Forest.get?] using hrest
                      have hb := hcons (j + 1) c' (by simpa [Forest.get?] using hc1)
                      simpa [subT_append, subT_underTr_ne (i + (j + 1)) i (by omega)] using hb
              | false =>
                  cases s0 with
                  | true =>
                      simp only [ho] at hres hrest ⊢
                      cases j with
                      | zero =>
                          have hc0 : (Node.tick ρ c env).node = c' := by
                            simpa [Forest.get?] using hrest
                          rw [← hc0]
                          simpa [subT_append, subT_underTr_same] using hstep
                      | succ j =>
                          have hc1 : tl.get? j = some c' := by simpa [Forest.get?] using hrest
                          have hb := hcons (j + 1) c' (by simpa [Forest.get?] using hc1)
                          simpa [subT_append, subT_underTr_ne (i + (j + 1)) i (by omega)] using hb
                  | false =>
                      simp only [ho] at hres hrest ⊢
                      have hres2 : (selLoop ρ (i + 1) tl 0 (some false) (Node.tick ρ c env).env).res
                          = .ok rs := by simpa using hres
                      cases j with
                      | zero =>
                          have hc0 : (Node.tick ρ c env).node = c' := by
                            simpa [Forest.get?] using hrest
                          rw [← hc0]
                          have hsub : subT i (selLoop ρ (i + 1) tl 0 (some false)
                              (Node.tick ρ c env).env).tr = [] :=
                            selLoop_subT_nil ρ tl (i + 1) 0 (some false) _ i (by omega)
                          simpa [subT_append, subT_underTr_same, hsub] using hstep
                      | succ j =>
                          have hc1 : (selLoop ρ (i + 1) tl 0 (some false)
                              (Node.tick ρ c env).env).rest.get? j = some c' := by
                            simpa [Forest.get?] using hrest
                          have hshift : ∀ j2 c2, tl.get? j2 = some c2 →
                              Consistent c2 (subT ((i + 1) + j2) (tr ++ underTr i (Node.tick ρ c env).tr)) := by
                            intro j2 c2 hc2
                            have hb := hcons (j2 + 1) c2 (by simpa [Forest.get?] using hc2)
                            have harith : i + (j2 + 1) = (i + 1) + j2 := by omega
                            rw [harith] at hb
                            simpa [subT_append, subT_underTr_ne ((i + 1) + j2) i (by omega)] using hb
                          have := ih (fun j2 c2 hc2 => hmem (j2 + 1) c2 (by simpa [Forest.get?] using hc2))
                            (i + 1) 0 (some false) (Node.tick ρ c env).env
                            (tr ++ underTr i (Node.tick ρ c env).tr) rs hshift hres2 j c' hc1
                          have harith : (i + 1) + j = i + (j + 1) := by omega
                          rw [harith] at this
                          simpa [List.append_assoc] using this

/-- Consistency transfer for the `UntilB`/`WhileB` loop: every child is
ticked, and each updated child is consistent with the extended trace by
its own tick. -/
theorem allLoop_consistent (ρ : Nat → ℚ) :
    ∀ (cs : Forest σ),
      (∀ j c, cs.get? j = some c → TickPreserves ρ c) →
      ∀ (i : Nat) (env : Env σ) (tr : List Ev) (results : List (Bool × Bool)),
        (∀ j c, cs.get? j = some c → Consistent c (subT (i + j) tr)) →
        (allLoop ρ i cs env).res = .ok results →
        ∀ j c', (allLoop ρ i cs env).rest.get? j = some c' →
          Consistent c' (subT (i + j) (tr ++ (allLoop ρ i cs env).tr)) := by
  intro cs
  induction cs using Forest.inductionOn with
  | nil =>
      intro _ i env tr results hcons hres j c' hrest
      simp [allLoop, Forest.get?] at hrest
  | cons c tl ih =>
      intro hmem i env tr results hcons hres j c' hrest
      have hmem0 : TickPreserves ρ c := hmem 0 c rfl
      have hbase0 : Consistent c (subT i tr) := by simpa using hcons 0 c rfl
      simp only [allLoop] at hres hrest ⊢
      cases ho : (Node.tick ρ c env).res with
      | error e => simp only [ho] at hres; cases hres
      | ok rs0 =>
          simp only [ho] at hres hrest ⊢
          cases hr2 : (allLoop ρ (i + 1) tl (Node.tick ρ c env).env).res with
          | error e => rw [hr2] at hres; simp [Except.map] at hres
          | ok results' =>
              have hstep : Consistent (Node.tick ρ c env).node (subT i tr ++ (Node.tick ρ c env).tr) :=
                hmem0 env (subT i tr) rs0 hbase0 ho
              cases j with
              | zero =>
                  have hc0 : (Node.tick ρ c env).node = c' := by
                    simpa [Forest.get?] using hrest
                  rw [← hc0]
                  have hsub : subT i (allLoop ρ (i + 1) tl (Node.tick ρ c env).env).tr = [] :=
                    allLoop_subT_nil ρ tl (i + 1) _ i (by omega)
                  simpa [subT_append, subT_underTr_same, hsub] using hstep
              | succ j =>
                  have hc1 : (allLoop ρ (i + 1) tl (Node.tick ρ c env).env).rest.get? j = some c' := by
                    simpa [Forest.get?] using hrest
                  have hshift : ∀ j2 c2, tl.get? j2 = some c2 →
                      Consistent c2 (subT ((i + 1) + j2) (tr ++ underTr i (Node.tick ρ c env).tr)) := by
                    intro j2 c2 hc2
                    have hb := hcons (j2 + 1) c2 (by simpa [Forest.get?] using hc2)
                    have harith : i + (j2 + 1) = (i + 1) + j2 := by omega
                    rw [harith] at hb
                    simpa [subT_append, subT_underTr_ne ((i + 1) + j2) i (by omega)] using hb
                  have := ih (fun j2 c2 hc2 => hmem (j2 + 1) c2 (by simpa [Forest.get?] using hc2))
                    (i + 1) (Node.tick ρ c env).env (tr ++ underTr i (Node.tick ρ c env).tr)
                    results' hshift hr2 j c' hc1
                  have harith : (i + 1) + j = i + (j + 1) := by omega
                  rw [harith] at this
                  simpa [List.append_assoc] using this

/-- Size-bounded induction core of the activation-lifecycle invariant:
every node preserves `Consistent` across a normally-returning tick. -/
theorem consistent_tick_aux (ρ : Nat → ℚ) :
    ∀ (N : Nat) (n : Node σ), sizeOf n < N → TickPreserves ρ n := by
  intro N
  induction N with
  | zero => intro n hn; exact absurd hn (Nat.not_lt_zero _)
  | succ N ihN =>
      intro n hn env tr rs hcons hres
      cases n with
      | Do w slot =>
          simp only [Node.tick] at hres ⊢
          cases hw : (w env.st).2 <;>
            · simp only [hw] at hres ⊢
              rw [consistent_iff]
              refine ⟨by simp [Node.active, lastActive_root_ticked], ?_⟩
              intro i c hic
              simp [childAt] at hic
      | Run w slot =>
          simp only [Node.tick] at hres ⊢
          cases hslot : slot.getD true with
          | true =>
              simp only [hslot] at hres ⊢
              cases hw : (w env.st).2 with
              | error e => simp only [hw] at hres; cases hres
              | ok u =>
                  simp only [hw] at hres ⊢
                  rw [consistent_iff]
                  refine ⟨by simp [Node.active, lastActive_root_ticked], ?_⟩
                  intro i c hic
                  simp [childAt] at hic
          | false =>
              simp only [hslot] at hres ⊢
              rw [consistent_iff]
              refine ⟨by simp [Node.active, lastActive_root_ticked], ?_⟩
              intro i c hic
              simp [childAt] at hic
      | Wait steps slot =>
          simp only [Node.tick] at hres ⊢
          by_cases hcnt : slot.getD steps ≤ 0
          · simp only [if_pos hcnt] at hres ⊢
            rw [consistent_iff]
            refine ⟨by simp [Node.active, lastActive_root_ticked], ?_⟩
            intro i c hic
            simp [childAt] at hic
          · simp only [if_neg hcnt] at hres ⊢
            rw [consistent_iff]
            refine ⟨by simp [Node.active, lastActive_root_ticked], ?_⟩
            intro i c hic
            simp [childAt] at hic
      | EvalB w slot =>
          simp only [Node.tick] at hres ⊢
          cases hw : (w env.st).2 <;>
            · simp only [hw] at hres ⊢
              rw [consistent_iff]
              refine ⟨by simp [Node.active, lastActive_root_ticked], ?_⟩
              intro i c hic
              simp [childAt] at hic
      | Repeat c slot =>
          have hc : sizeOf c < N := by simp only [Node.Repeat.sizeOf_spec] at hn; omega
          have hdec := (consistent_iff _ tr).mp hcons
          have hchild : Consistent c (subT 0 tr) := hdec.2 0 c rfl
          simp only [Node.tick] at hres ⊢
          cases ho : (Node.tick ρ c env).res with
          | error e => simp only [ho] at hres; cases hres
          | ok rs0 =>
              obtain ⟨r0, s0⟩ := rs0
              have hstep := ihN c hc env (subT 0 tr) (r0, s0) hchild ho
              cases r0 <;> cases s0 <;>
              · simp only [ho] at hres ⊢
                rw [consistent_iff]
                constructor
                · simp [Node.active, ← List.append_assoc, lastActive_root_ticked]
                · intro i c2 hic
                  rcases i with _ | i
                  · have he : (Node.tick ρ c env).node = c2 := by simpa [childAt] using hic
                    rw [← he]
                    simpa [← List.append_assoc, subT_append, subT_underTr_same,
                      subT_root_ticked] using hstep
                  · simp [childAt] at hic
      | NotB c slot =>
          have hc : sizeOf c < N := by simp only [Node.NotB.sizeOf_spec] at hn; omega
          have hdec := (consistent_iff _ tr).mp hcons
          have hchild : Consistent c (subT 0 tr) := hdec.2 0 c rfl
          simp only [Node.tick] at hres ⊢
          cases ho : (Node.tick ρ c env).res with
          | error e => simp only [ho] at hres; cases hres
          | ok rs0 =>
              obtain ⟨r0, s0⟩ := rs0
              have hstep := ihN c hc env (subT 0 tr) (r0, s0) hchild ho
              cases r0 <;> cases s0 <;>
              · simp only [ho] at hres ⊢
                rw [consistent_iff]
                constructor
                · simp [Node.active, ← List.append_assoc, lastActive_root_ticked]
                · intro i c2 hic
                  rcases i with _ | i
                  · have he : (Node.tick ρ c env).node = c2 := by simpa [childAt] using hic
                    rw [← he]
                    simpa [← List.append_assoc, subT_append, subT_underTr_same,
                      subT_root_ticked] using hstep
                  · simp [childAt] at hic
      | Chance t c slot =>
          have hc : sizeOf c < N := by simp only [Node.Chance.sizeOf_spec] at hn; omega
          have hdec := (consistent_iff _ tr).mp hcons
          have hchild : Consistent c (subT 0 tr) := hdec.2 0 c rfl
          cases slot with
          | some b =>
              cases b with
              | false =>
                  simp only [Node.tick] at hres ⊢
                  rw [consistent_iff]
                  refine ⟨by simp [Node.active, lastActive_root_ticked], ?_⟩
                  intro i c2 hic
                  rcases i with _ | i
                  · have he : c = c2 := by simpa [childAt] using hic
                    rw [← he]
                    simpa [subT_append, subT_root_ticked] using hchild
                  · simp [childAt] at hic
              | true =>
                  simp only [Node.tick] at hres ⊢
                  cases ho : (Node.tick ρ c env).res with
                  | error e => simp only [ho] at hres; cases hres
                  | ok rs0 =>
                      obtain ⟨r0, s0⟩ := rs0
                      have hstep := ihN c hc env (subT 0 tr) (r0, s0) hchild ho
                      cases r0 <;>
                      · simp only [ho] at hres ⊢
                        rw [consistent_iff]
                        constructor
                        · simp [Node.active, ← List.append_assoc, lastActive_root_ticked]
                        · intro i c2 hic
                          rcases i with _ | i
                          · have he : (Node.tick ρ c env).node = c2 := by
                              simpa [childAt] using hic
                            rw [← he]
                            simpa [← List.append_assoc, subT_append, subT_underTr_same,
                              subT_root_ticked] using hstep
                          · simp [childAt] at hic
          | none =>
              cases hg : decide (ρ env.rix ≤ t) with
              | false =>
                  simp only [Node.tick, hg] at hres ⊢
                  rw [consistent_iff]
                  refine ⟨by simp [Node.active, lastActive_root_ticked], ?_⟩
                  intro i c2 hic
                  rcases i with _ | i
                  · have he : c = c2 := by simpa [childAt] using hic
                    rw [← he]
                    simpa [subT_append, subT_root_ticked] using hchild
                  · simp [childAt] at hic
              | true =>
                  simp only [Node.tick, hg] at hres ⊢
                  cases ho : (Node.tick ρ c ⟨env.st, env.rix + 1⟩).res with
                  | error e => simp only [ho] at hres; cases hres
                  | ok rs0 =>
                      obtain ⟨r0, s0⟩ := rs0
                      have hstep := ihN c hc ⟨env.st, env.rix + 1⟩ (subT 0 tr) (r0, s0) hchild ho
                      cases r0 <;>
                      · simp only [ho] at hres ⊢
                        rw [consistent_iff]
                        constructor
                        · simp [Node.active, ← List.append_assoc, lastActive_root_ticked]
                        · intro i c2 hic
                          rcases i with _ | i
                          · have he : (Node.tick ρ c ⟨env.st, env.rix + 1⟩).node = c2 := by
                              simpa [childAt] using hic
                            rw [← he]
                            simpa [← List.append_assoc, subT_append, subT_underTr_same,
                              subT_root_ticked] using hstep
                          · simp [childAt] at hic
      | Sequence cs slot =>
          have hdec := (consistent_iff _ tr).mp hcons
          have hmem : ∀ j c, cs.get? j = some c → TickPreserves ρ c := by
            intro j c hc
            have h1 := sizeOf_get?_lt cs j c hc
            have h2 : sizeOf c < N := by simp only [Node.Sequence.sizeOf_spec] at hn; omega
            exact ihN c h2
          have hbase : ∀ j c, cs.get? j = some c → Consistent c (subT (0 + j) tr) := by
            intro j c hc
            simpa using hdec.2 j c (by simpa [childAt] using hc)
          simp only [Node.tick] at hres ⊢
          cases hl : (seqLoop ρ 0 cs (slot.getD 0) none env).res with
          | error e => simp only [hl] at hres; cases hres
          | ok rs0 =>
              obtain ⟨r0, s0⟩ := rs0
              have hkids := seqLoop_consistent ρ cs hmem 0 (slot.getD 0) none env tr (r0, s0)
                hbase hl
              cases r0 <;>
              · simp only [hl] at hres ⊢
                rw [consistent_iff]
                constructor
                · simp [Node.active, ← List.append_assoc, lastActive_root_ticked]
                · intro i c hic
                  have hg : (seqLoop ρ 0 cs (slot.getD 0) none env).rest.get? i = some c := by
                    simpa [childAt] using hic
                  have hki := hkids i c hg
                  simp only [zero_add] at hki
                  simpa [← List.append_assoc, subT_append, subT_root_ticked] using hki
      | Select cs slot =>
          have hdec := (consistent_iff _ tr).mp hcons
          have hmem : ∀ j c, cs.get? j = some c → TickPreserves ρ c := by
            intro j c hc
            have h1 := sizeOf_get?_lt cs j c hc
            have h2 : sizeOf c < N := by simp only [Node.Select.sizeOf_spec] at hn; omega
            exact ihN c h2
          have hbase : ∀ j c, cs.get? j = some c → Consistent c (subT (0 + j) tr) := by
            intro j c hc
            simpa using hdec.2 j c (by simpa [childAt] using hc)
          simp only [Node.tick] at hres ⊢
          cases hl : (selLoop ρ 0 cs (slot.getD 0) none env).res with
          | error e => simp only [hl] at hres; cases hres
          | ok rs0 =>
              obtain ⟨r0, s0⟩ := rs0
              have hkids := selLoop_consistent ρ cs hmem 0 (slot.getD 0) none env tr (r0, s0)
                hbase hl
              cases r0 <;>
              · simp only [hl] at hres ⊢
                rw [consistent_iff]
                constructor
                · simp [Node.active, ← List.append_assoc, lastActive_root_ticked]
                · intro i c hic
                  have hg : (selLoop ρ 0 cs (slot.getD 0) none env).rest.get? i = some c := by
                    simpa [childAt] using hic
                  have hki := hkids i c hg
                  simp only [zero_add] at hki
                  simpa [← List.append_assoc, subT_append, subT_root_ticked] using hki
      | UntilB cs slot =>
          have hdec := (consistent_iff _ tr).mp hcons
          have hmem : ∀ j c, cs.get? j = some c → TickPreserves ρ c := by
            intro j c hc
            have h1 := sizeOf_get?_lt cs j c hc
            have h2 : sizeOf c < N := by simp only [Node.UntilB.sizeOf_spec] at hn; omega
            exact ihN c h2
          have hbase : ∀ j c, cs.get? j = some c → Consistent c (subT (0 + j) tr) := by
            intro j c hc
            simpa using hdec.2 j c (by simpa [childAt] using hc)
          simp only [Node.tick] at hres ⊢
          cases hl : (allLoop ρ 0 cs env).res with
          | error e => simp only [hl] at hres; cases hres
          | ok results =>
              have hkids := allLoop_consistent ρ cs hmem 0 env tr results hbase hl
              simp only [hl] at hres ⊢
              by_cases hany : results.any (fun p => !p.1 && p.2) <;>
              · simp only [hany, if_true, if_false] at hres ⊢
                rw [consistent_iff]
                constructor
                · simp [Node.active, ← List.append_assoc, lastActive_root_ticked]
                · intro i c hic
                  have hg : (allLoop ρ 0 cs env).rest.get? i = some c := by
                    simpa [childAt] using hic
                  have hki := hkids i c hg
                  simp only [zero_add] at hki
                  simpa [← List.append_assoc, subT_append, subT_root_ticked] using hki
      | WhileB cs slot =>
          have hdec := (consistent_iff _ tr).mp hcons
          have hmem : ∀ j c, cs.get? j = some c → TickPreserves ρ c := by
            intro j c hc
            have h1 := sizeOf_get?_lt cs j c hc
            have h2 : sizeOf c < N := by simp only [Node.WhileB.sizeOf_spec] at hn; omega
            exact ihN c h2
          have hbase : ∀ j c, cs.get? j = some c → Consistent c (subT (0 + j) tr) := by
            intro j c hc
            simpa using hdec.2 j c (by simpa [childAt] using hc)
          simp only [Node.tick] at hres ⊢
          cases hl : (allLoop ρ 0 cs env).res with
          | error e => simp only [hl] at hres; cases hres
          | ok results =>
              have hkids := allLoop_consistent ρ cs hmem 0 env tr results hbase hl
              simp only [hl] at hres ⊢
              by_cases hall : results.all (fun p => p.1 || p.2) <;>
              · simp only [hall, if_true, if_false] at hres ⊢
                rw [consistent_iff]
                constructor
                · simp [Node.active, ← List.append_assoc, lastActive_root_ticked]
                · intro i c hic
                  have hg : (allLoop ρ 0 cs env).rest.get? i = some c := by
                    simpa [childAt] using hic
                  have hki := hkids i c hg
                  simp only [zero_add] at hki
                  simpa [← List.append_assoc, subT_append, subT_root_ticked] using hki
      | Conditional cnd tru fls slot =>
          have hC : sizeOf cnd < N := by simp only [Node.Conditional.sizeOf_spec] at hn; omega
          have hT : sizeOf tru < N := by simp only [Node.Conditional.sizeOf_spec] at hn; omega
          have hF : sizeOf fls < N := by simp only [Node.Conditional.sizeOf_spec] at hn; omega
          have hdec := (consistent_iff _ tr).mp hcons
          have hcnd : Consistent cnd (subT 0 tr) := hdec.2 0 cnd rfl
          have htru : Consistent tru (subT 1 tr) := hdec.2 1 tru rfl
          have hfls : Consistent fls (subT 2 tr) := hdec.2 2 fls rfl
          simp only [Node.tick] at hres ⊢
          cases ho : (Node.tick ρ cnd env).res with
          | error e => simp only [ho] at hres; cases hres
          | ok rsc =>
              obtain ⟨rc, vc⟩ := rsc
              have hcstep := ihN cnd hC env (subT 0 tr) (rc, vc) hcnd ho
              cases rc with
              | true =>
                  simp only [ho] at hres ⊢
                  rw [consistent_iff]
                  constructor
                  · simp [Node.active, ← List.append_assoc, lastActive_root_ticked]
                  · intro i c hic
                    rcases i with _ | _ | _ | i
                    · have he : (Node.tick ρ cnd env).node = c := by simpa [childAt] using hic
                      rw [← he]
                      simpa [← List.append_assoc, subT_append, subT_underTr_same,
                        subT_root_ticked] using hcstep
                    · have he : tru = c := by simpa [childAt] using hic
                      rw [← he]
                      simpa [← List.append_assoc, subT_append,
                        subT_underTr_ne 1 0 (by omega), subT_root_ticked] using htru
                    · have he : fls = c := by simpa [childAt] using hic
                      rw [← he]
                      simpa [← List.append_assoc, subT_append,
                        subT_underTr_ne 2 0 (by omega), subT_root_ticked] using hfls
                    · simp [childAt] at hic
              | false =>
                  simp only [ho] at hres ⊢
                  by_cases hsel : slot.getD none = some vc
                  · rw [if_pos hsel] at hres ⊢
                    cases vc with
                    | true =>
                        obtain ⟨r1, s1⟩ := rs
                        have hob : (Node.tick ρ tru (Node.tick ρ cnd env).env).res
                            = .ok (r1, s1) := by simpa using hres
                        have hbstep := ihN tru hT (Node.tick ρ cnd env).env (subT 1 tr)
                          (r1, s1) htru hob
                        rw [consistent_iff]
                        constructor
                        · cases r1 <;>
                            simp [hob, Node.active, condSlot, tickedEv,
                              ← List.append_assoc, lastActive_root_ticked]
                        · intro i c hic
                          rcases i with _ | _ | _ | i
                          · have he : (Node.tick ρ cnd env).node = c := by
                              simpa [childAt] using hic
                            rw [← he]
                            simpa [hob, tickedEv, ← List.append_assoc, subT_append,
                              subT_underTr_same, subT_underTr_ne 0 1 (by omega),
                              subT_root_ticked] using hcstep
                          · have he : (Node.tick ρ tru (Node.tick ρ cnd env).env).node = c := by
                              simpa [childAt] using hic
                            rw [← he]
                            simpa [hob, tickedEv, ← List.append_assoc, subT_append,
                              subT_underTr_same, subT_underTr_ne 1 0 (by omega),
                              subT_root_ticked] using hbstep
                          · have he : fls = c := by simpa [childAt] using hic
                            rw [← he]
                            simpa [hob, tickedEv, ← List.append_assoc, subT_append,
                              subT_underTr_ne 2 0 (by omega), subT_underTr_ne 2 1 (by omega),
                              subT_root_ticked] using hfls
                          · simp [childAt] at hic
                    | false =>
                        obtain ⟨r1, s1⟩ := rs
                        have hob : (Node.tick ρ fls (Node.tick ρ cnd env).env).res
                            = .ok (r1, s1) := by simpa using hres
                        have hbstep := ihN fls hF (Node.tick ρ cnd env).env (subT 2 tr)
                          (r1, s1) hfls hob
                        rw [consistent_iff]
                        constructor
                        · cases r1 <;>
                            simp [hob, Node.active, condSlot, tickedEv,
                              ← List.append_assoc, lastActive_root_ticked]
                        · intro i c hic
                          rcases i with _ | _ | _ | i
                          · have he : (Node.tick ρ cnd env).node = c := by
                              simpa [childAt] using hic
                            rw [← he]
                            simpa [hob, tickedEv, ← List.append_assoc, subT_append,
                              subT_underTr_same, subT_underTr_ne 0 2 (by omega),
                              subT_root_ticked] using hcstep
                          · have he : tru = c := by simpa [childAt] using hic
                            rw [← he]
                            simpa [hob, tickedEv, ← List.append_assoc, subT_append,
                              subT_underTr_ne 1 0 (by omega), subT_underTr_ne 1 2 (by omega),
                              subT_root_ticked] using htru
                          · have he : (Node.tick ρ fls (Node.tick ρ cnd env).env).node = c := by
                              simpa [childAt] using hic
                            rw [← he]
                            simpa [hob, tickedEv, ← List.append_assoc, subT_append,
                              subT_underTr_same, subT_underTr_ne 2 0 (by omega),
                              subT_root_ticked] using hbstep
                          · simp [childAt] at hic
                  · rw [if_neg hsel] at hres ⊢
                    cases hlr : slot.getD none with
                    | none =>
                        simp only [hlr] at hres ⊢
                        cases vc with
                        | true =>
                            obtain ⟨r1, s1⟩ := rs
                            have hob : (Node.tick ρ tru (Node.tick ρ cnd env).env).res
                                = .ok (r1, s1) := by simpa using hres
                            have hbstep := ihN tru hT (Node.tick ρ cnd env).env (subT 1 tr)
                              (r1, s1) htru hob
                            rw [consistent_iff]
                            constructor
                            · cases r1 <;>
                                simp [hob, Node.active, condSlot, tickedEv,
                                  ← List.append_assoc, lastActive_root_ticked]
                            · intro i c hic
                              rcases i with _ | _ | _ | i
                              · have he : (Node.tick ρ cnd env).node = c := by
                                  simpa [childAt] using hic
                                rw [← he]
                                simpa [hob, tickedEv, ← List.append_assoc, subT_append,
                                  subT_underTr_same, subT_underTr_ne 0 1 (by omega),
                                  subT_root_ticked] using hcstep
                              · have he : (Node.tick ρ tru (Node.tick ρ cnd env).env).node
                                    = c := by simpa [childAt] using hic
                                rw [← he]
                                simpa [hob, tickedEv, ← List.append_assoc, subT_append,
                                  subT_underTr_same, subT_underTr_ne 1 0 (by omega),
                                  subT_root_ticked] using hbstep
                              · have he : fls = c := by simpa [childAt] using hic
                                rw [← he]
                                simpa [hob, tickedEv, ← List.append_assoc, subT_append,
                                  subT_underTr_ne 2 0 (by omega),
                                  subT_underTr_ne 2 1 (by omega),
                                  subT_root_ticked] using hfls
                              · simp [childAt] at hic
                        | false =>
                            obtain ⟨r1, s1⟩ := rs
                            have hob : (Node.tick ρ fls (Node.tick ρ cnd env).env).res
                                = .ok (r1, s1) := by simpa using hres
                            have hbstep := ihN fls hF (Node.tick ρ cnd env).env (subT 2 tr)
                              (r1, s1) hfls hob
                            rw [consistent_iff]
                            constructor
                            · cases r1 <;>
                                simp [hob, Node.active, condSlot, tickedEv,
                                  ← List.append_assoc, lastActive_root_ticked]
                            · intro i c hic
                              rcases i with _ | _ | _ | i
                              · have he : (Node.tick ρ cnd env).node = c := by
                                  simpa [childAt] using hic
                                rw [← he]
                                simpa [hob, tickedEv, ← List.append_assoc, subT_append,
                                  subT_underTr_same, subT_underTr_ne 0 2 (by omega),
                                  subT_root_ticked] using hcstep
                              · have he : tru = c := by simpa [childAt] using hic
                                rw [← he]
                                simpa [hob, tickedEv, ← List.append_assoc, subT_append,
                                  subT_underTr_ne 1 0 (by omega),
                                  subT_underTr_ne 1 2 (by omega),
                                  subT_root_ticked] using htru
                              · have he : (Node.tick ρ fls (Node.tick ρ cnd env).env).node
                                    = c := by simpa [childAt] using hic
                                rw [← he]
                                simpa [hob, tickedEv, ← List.append_assoc, subT_append,
                                  subT_underTr_same, subT_underTr_ne 2 0 (by omega),
                                  subT_root_ticked] using hbstep
                              · simp [childAt] at hic
                    | some b =>
                        simp only [hlr] at hres ⊢
                        cases b with
                        | true =>
                            cases hex : Node.exit tru with
                            | error e => simp only [hex] at hres; cases hres
                            | ok tru1 =>
                                have hclr : tru1 = Node.clear tru := exit_ok_clear hex
                                subst hclr
                                simp only [hex] at hres ⊢
                                obtain ⟨r1, s1⟩ := rs
                                have hob : (Node.tick ρ fls (Node.tick ρ cnd env).env).res
                                    = .ok (r1, s1) := by simpa using hres
                                have hbstep := ihN fls hF (Node.tick ρ cnd env).env
                                  (subT 2 tr) (r1, s1) hfls hob
                                have hdtru := consistent_clear_deact tru (subT 1 tr) htru
                                rw [consistent_iff]
                                constructor
                                · cases r1 <;>
                                    simp [hob, Node.active, condSlot, tickedEv,
                                      ← List.append_assoc, lastActive_root_ticked]
                                · intro i c hic
                                  rcases i with _ | _ | _ | i
                                  · have he : (Node.tick ρ cnd env).node = c := by
                                      simpa [childAt] using hic
                                    rw [← he]
                                    simpa [hob, tickedEv, ← List.append_assoc, subT_append,
                                      subT_underTr_same, subT_underTr_ne 0 1 (by omega),
                                      subT_underTr_ne 0 2 (by omega), subT_deact_one,
                                      subT_root_ticked] using hcstep
                                  · have he : Node.clear tru = c := by
                                      simpa [childAt] using hic
                                    rw [← he]
                                    simpa [hob, tickedEv, ← List.append_assoc, subT_append,
                                      subT_underTr_ne 1 0 (by omega),
                                      subT_underTr_ne 1 2 (by omega), subT_deact_one,
                                      subT_root_ticked] using hdtru
                                  · have he : (Node.tick ρ fls (Node.tick ρ cnd env).env).node
                                        = c := by simpa [childAt] using hic
                                    rw [← he]
                                    simpa [hob, tickedEv, ← List.append_assoc, subT_append,
                                      subT_underTr_same, subT_underTr_ne 2 0 (by omega),
                                      subT_deact_one, subT_root_ticked] using hbstep
                                  · simp [childAt] at hic
                        | false =>
                            cases hex : Node.exit fls with
                            | error e => simp only [hex] at hres; cases hres
                            | ok fls1 =>
                                have hclr : fls1 = Node.clear fls := exit_ok_clear hex
                                subst hclr
                                simp only [hex] at hres ⊢
                                obtain ⟨r1, s1⟩ := rs
                                have hob : (Node.tick ρ tru (Node.tick ρ cnd env).env).res
                                    = .ok (r1, s1) := by simpa using hres
                                have hbstep := ihN tru hT (Node.tick ρ cnd env).env
                                  (subT 1 tr) (r1, s1) htru hob
                                have hdfls := consistent_clear_deact fls (subT 2 tr) hfls
                                rw [consistent_iff]
                                constructor
                                · cases r1 <;>
                                    simp [hob, Node.active, condSlot, tickedEv,
                                      ← List.append_assoc, lastActive_root_ticked]
                                · intro i c hic
                                  rcases i with _ | _ | _ | i
                                  · have he : (Node.tick ρ cnd env).node = c := by
                                      simpa [childAt] using hic
                                    rw [← he]
                                    simpa [hob, tickedEv, ← List.append_assoc, subT_append,
                                      subT_underTr_same, subT_underTr_ne 0 1 (by omega),
                                      subT_underTr_ne 0 2 (by omega), subT_deact_one,
                                      subT_root_ticked] using hcstep
                                  · have he : (Node.tick ρ tru (Node.tick ρ cnd env).env).node
                                        = c := by simpa [childAt] using hic
                                    rw [← he]
                                    simpa [hob, tickedEv, ← List.append_assoc, subT_append,
                                      subT_underTr_same, subT_underTr_ne 1 0 (by omega),
                                      subT_deact_one, subT_root_ticked] using hbstep
                                  · have he : Node.clear fls = c := by
                                      simpa [childAt] using hic
                                    rw [← he]
                                    simpa [hob, tickedEv, ← List.append_assoc, subT_append,
                                      subT_underTr_ne 2 0 (by omega),
                                      subT_underTr_ne 2 1 (by omega), subT_deact_one,
                                      subT_root_ticked] using hdfls
                                  · simp [childAt] at hic

/-- C1 counterexample to the claim as stated: in the long-running
conditional scenario, after the second root tick (condition flipped, so
the conditional deactivated the previously selected, still running true
branch), the true branch at path `[1]` has an empty behaviour slot even
though its most recent completed tick returned `running = true` and no
later tick of it returned `running = false` — the slot was emptied by
the `Conditional`'s deactivation, not by the branch's own tick. -/
theorem active_slot_invariant_counterexample :
    slotAt condT2.node [1] = some false
    ∧ lastTickRunning (condT1.tr ++ condT2.tr) [1] = some true := by
  exact ⟨by decide, by decide⟩

/-- C1 (amended): driving a tree only through the public tick entry
point, a node's behaviour slot is non-empty exactly when its most
recent tick returned `running = true` and it has not since been ended —
by a later tick of it returning `running = false` or by the explicit
deactivation a `Conditional` performs on the previously selected branch
when switching (counted here via `lastActive`, which treats a `deact`
event as ending the activation) — as long as each root tick returns
normally.  The first conjunct establishes the invariant for a fresh
tree (all slots empty, empty trace), the second preserves it across any
normally-returning tick. -/
theorem active_slot_invariant (ρ : Nat → ℚ) :
    (∀ (n : Node σ), idle n → Consistent n [])
    ∧ (∀ (n : Node σ) (env : Env σ) (tr : List Ev) (rs : Bool × Bool),
        Consistent n tr → (Node.tick ρ n env).res = .ok rs →
        Consistent (Node.tick ρ n env).node (tr ++ (Node.tick ρ n env).tr)) := by
  constructor
  · intro n hidle p b hp
    have hb := hidle p b hp
    subst hb
    simp [lastActive]
  · intro n env tr rs hc hres
    exact consistent_tick_aux ρ (sizeOf n + 1) n (Nat.lt_succ_self _) env tr rs hc hres

/-- Witness for C1: a fresh `wait(1)` node is consistent with the empty
trace, and one tick of it carries that to consistency with the tick's
trace. -/
theorem active_slot_invariant_witness :
    Consistent (Node.tick rho0 (wait 1 : Node Unit) ⟨(), 0⟩).node
      ([] ++ (Node.tick rho0 (wait 1 : Node Unit) ⟨(), 0⟩).tr) :=
  (active_slot_invariant rho0).2 (wait 1) ⟨(), 0⟩ [] (true, true)
    ((active_slot_invariant rho0).1 (wait 1) (by
      intro p b hp
      cases p with
      | nil =>
          have : false = b := by simpa [wait, slotAt, Node.active] using hp
          exact this.symm
      | cons i q => simp [wait, slotAt, childAt] at hp))
    rfl

end BT
